import Mathlib

/-!
Verification of the cascade pipeline engine (`cascade_base.py`, `cascade_steps.py`)
against its natural-language specification.

Python strings are modelled as lists of characters (`PyStr`), so that the
string-splitting and joining operations used by the cascade-id algebra can be
reasoned about directly.  Python `dict`s are modelled as insertion-ordered
association lists with the overwrite-or-append update of CPython.  The event
loop is not modelled: each coroutine that a claim mentions is embedded as the
pure state transformation it performs between its suspension points.
-/

/-- Python strings, modelled as lists of unicode code points. -/
abbrev PyStr := List Char

/-- Python `sep.join(parts)` for a one-character separator `sep`. -/
def joinChar (sep : Char) : List PyStr → PyStr
  | [] => []
  | [p] => p
  | p :: ps => p ++ sep :: joinChar sep ps

/-- Python `s.split(sep)` for a one-character separator `sep`. -/
def splitChar (sep : Char) : PyStr → List PyStr
  | [] => [[]]
  | c :: cs =>
    if c = sep then [] :: splitChar sep cs
    else
      match splitChar sep cs with
      | [] => [[c]]
      | p :: ps => (c :: p) :: ps

/-- Locate the first occurrence of `sep` in a string, returning the pieces
before and after it.  `breakAtChar sep s = some (a, b)` corresponds to
Python `s.split(sep, 1) == [a, b]`; `none` means `sep` does not occur. -/
def breakAtChar (sep : Char) : PyStr → Option (PyStr × PyStr)
  | [] => none
  | c :: cs =>
    if c = sep then some ([], cs)
    else (breakAtChar sep cs).map (fun p => (c :: p.1, p.2))

theorem splitChar_ne_nil (sep : Char) (s : PyStr) : splitChar sep s ≠ [] := by
  induction s with
  | nil => simp [splitChar]
  | cons c cs ih =>
    simp only [splitChar]
    split
    · simp
    · cases h : splitChar sep cs with
      | nil => simp
      | cons p ps => simp

theorem splitChar_of_not_mem {sep : Char} {s : PyStr} (h : sep ∉ s) :
    splitChar sep s = [s] := by
  induction s with
  | nil => rfl
  | cons c cs ih =>
    simp only [List.mem_cons, not_or] at h
    rw [splitChar, if_neg (Ne.symm h.1), ih h.2]

theorem joinChar_splitChar (sep : Char) (s : PyStr) :
    joinChar sep (splitChar sep s) = s := by
  induction s with
  | nil => rfl
  | cons c cs ih =>
    simp only [splitChar]
    split
    · rename_i hc
      subst hc
      cases h : splitChar c cs with
      | nil => exact absurd h (splitChar_ne_nil c cs)
      | cons p ps =>
        rw [h] at ih
        cases ps with
        | nil => simpa [joinChar] using ih
        | cons q qs => simpa [joinChar] using ih
    · cases h : splitChar sep cs with
      | nil => exact absurd h (splitChar_ne_nil sep cs)
      | cons p ps =>
        rw [h] at ih
        cases ps with
        | nil => simpa [joinChar] using ih
        | cons q qs => simpa [joinChar] using ih

/-- Splitting a string that starts with a separator-free piece `p` followed by
the separator peels off `p` as the first token. -/
theorem splitChar_head_piece {sep : Char} {p : PyStr} (r : PyStr) (hp : sep ∉ p) :
    splitChar sep (p ++ sep :: r) = p :: splitChar sep r := by
  induction p with
  | nil => simp [splitChar]
  | cons c cs ih =>
    simp only [List.mem_cons, not_or] at hp
    rw [List.cons_append, splitChar, if_neg (Ne.symm hp.1), ih hp.2]

theorem splitChar_append_sep {sep : Char} (p : PyStr) {t : PyStr} (ht : sep ∉ t) :
    splitChar sep (p ++ sep :: t) = splitChar sep p ++ [t] := by
  induction p with
  | nil => simp [splitChar, splitChar_of_not_mem ht]
  | cons c cs ih =>
    by_cases hc : c = sep
    · subst hc
      rw [List.cons_append, splitChar, if_pos rfl, ih, splitChar]
      rw [if_pos rfl, List.cons_append]
    · rw [List.cons_append, splitChar, if_neg hc, ih, splitChar, if_neg hc]
      cases h : splitChar sep cs with
      | nil => exact absurd h (splitChar_ne_nil sep cs)
      | cons q qs => simp

theorem splitChar_joinChar {sep : Char} {ps : List PyStr} (hne : ps ≠ [])
    (h : ∀ p ∈ ps, sep ∉ p) :
    splitChar sep (joinChar sep ps) = ps := by
  induction ps with
  | nil => exact absurd rfl hne
  | cons p ps ih =>
    cases ps with
    | nil => simp [joinChar, splitChar_of_not_mem (h p (by simp))]
    | cons q qs =>
      have hp : sep ∉ p := h p (by simp)
      have hrest : ∀ r ∈ q :: qs, sep ∉ r := fun r hr => h r (List.mem_cons_of_mem _ hr)
      have ihq := ih (by simp) hrest
      show splitChar sep (p ++ sep :: joinChar sep (q :: qs)) = p :: q :: qs
      rw [splitChar_head_piece _ hp, ihq]

theorem mem_joinChar {sep : Char} {ps : List PyStr} {c : Char}
    (h : c ∈ joinChar sep ps) : c = sep ∨ ∃ p ∈ ps, c ∈ p := by
  induction ps with
  | nil => simp [joinChar] at h
  | cons p ps ih =>
    cases ps with
    | nil =>
      right
      exact ⟨p, by simp, by simpa [joinChar] using h⟩
    | cons q qs =>
      simp only [joinChar, List.mem_append, List.mem_cons] at h
      rcases h with h | h | h
      · exact Or.inr ⟨p, by simp, h⟩
      · exact Or.inl h
      · rcases ih (by simpa [joinChar] using h) with h' | ⟨r, hr, hcr⟩
        · exact Or.inl h'
        · exact Or.inr ⟨r, List.mem_cons_of_mem _ hr, hcr⟩

theorem breakAtChar_of_not_mem {sep : Char} {s : PyStr} (h : sep ∉ s) :
    breakAtChar sep s = none := by
  induction s with
  | nil => rfl
  | cons c cs ih =>
    simp only [List.mem_cons, not_or] at h
    simp [breakAtChar, if_neg (Ne.symm h.1), ih h.2]

theorem breakAtChar_append {sep : Char} {a : PyStr} (b : PyStr) (ha : sep ∉ a) :
    breakAtChar sep (a ++ sep :: b) = some (a, b) := by
  induction a with
  | nil => simp [breakAtChar]
  | cons c cs ih =>
    simp only [List.mem_cons, not_or] at ha
    simp [breakAtChar, if_neg (Ne.symm ha.1), ih ha.2]

/-- Python's `<=` on strings: lexicographic comparison by code point. -/
def strLe : PyStr → PyStr → Bool
  | [], _ => true
  | _ :: _, [] => false
  | a :: as, b :: bs => if a = b then strLe as bs else decide (a < b)

/-- The ordering used by Python `sorted` on a list of strings. -/
def StrLE (a b : PyStr) : Prop := strLe a b = true

instance : DecidableRel StrLE := fun a b => instDecidableEqBool (strLe a b) true

theorem strLe_total (a b : PyStr) : StrLE a b ∨ StrLE b a := by
  induction a generalizing b with
  | nil => exact Or.inl rfl
  | cons c cs ih =>
    cases b with
    | nil => exact Or.inr rfl
    | cons d ds =>
      by_cases hcd : c = d
      · subst hcd
        rcases ih ds with h | h
        · exact Or.inl (by simpa [StrLE, strLe] using h)
        · exact Or.inr (by simpa [StrLE, strLe] using h)
      · rcases lt_or_gt_of_ne hcd with h | h
        · exact Or.inl (by simp [StrLE, strLe, if_neg hcd, h])
        · exact Or.inr (by simp [StrLE, strLe, if_neg (Ne.symm hcd), h])

theorem strLe_trans {a b c : PyStr} (hab : StrLE a b) (hbc : StrLE b c) : StrLE a c := by
  induction a generalizing b c with
  | nil => rfl
  | cons x xs ih =>
    cases b with
    | nil => simp [StrLE, strLe] at hab
    | cons y ys =>
      cases c with
      | nil => simp [StrLE, strLe] at hbc
      | cons z zs =>
        by_cases hxy : x = y <;> by_cases hyz : y = z
        · subst hxy; subst hyz
          simp only [StrLE, strLe, if_pos rfl] at hab hbc ⊢
          exact ih hab hbc
        · subst hxy
          simpa [StrLE, strLe, if_neg hyz] using hbc
        · subst hyz
          simpa [StrLE, strLe, if_neg hxy] using hab
        · simp only [StrLE, strLe, if_neg hxy] at hab
          simp only [StrLE, strLe, if_neg hyz] at hbc
          have hxz : x < z := lt_trans (of_decide_eq_true hab) (of_decide_eq_true hbc)
          simp [StrLE, strLe, if_neg (ne_of_lt hxz), hxz]

theorem strLe_antisymm {a b : PyStr} (hab : StrLE a b) (hba : StrLE b a) : a = b := by
  induction a generalizing b with
  | nil =>
    cases b with
    | nil => rfl
    | cons d ds => simp [StrLE, strLe] at hba
  | cons c cs ih =>
    cases b with
    | nil => simp [StrLE, strLe] at hab
    | cons d ds =>
      by_cases hcd : c = d
      · subst hcd
        simp only [StrLE, strLe, if_pos rfl] at hab hba
        rw [ih hab hba]
      · simp only [StrLE, strLe, if_neg hcd] at hab
        simp only [StrLE, strLe, if_neg (Ne.symm hcd)] at hba
        exact absurd (of_decide_eq_true hba) (not_lt_of_lt (of_decide_eq_true hab))

instance : IsTotal PyStr StrLE := ⟨strLe_total⟩

instance : IsTrans PyStr StrLE := ⟨fun _ _ _ => strLe_trans⟩

instance : IsAntisymm PyStr StrLE := ⟨fun _ _ => strLe_antisymm⟩

/-- Python `sorted` on a list of strings (stable sort by `<=`). -/
def pySortStrs (l : List PyStr) : List PyStr := List.insertionSort StrLE l

/-- Python's `<=` on pairs of strings: lexicographic on the components, as used
by `sorted(params.items())` for a dict with string keys and values. -/
def pairLe (a b : PyStr × PyStr) : Bool :=
  if a.1 = b.1 then strLe a.2 b.2 else strLe a.1 b.1

/-- The ordering used by Python `sorted` on `dict.items()`. -/
def PairLE (a b : PyStr × PyStr) : Prop := pairLe a b = true

instance : DecidableRel PairLE := fun a b => instDecidableEqBool (pairLe a b) true

/-- Python `sorted` on key/value pairs. -/
def pySortPairs (l : List (PyStr × PyStr)) : List (PyStr × PyStr) :=
  List.insertionSort PairLE l

/-- The decimal digit character for `d % 10`, i.e. Python `str(d)` for `d < 10`. -/
def digitChar (d : Nat) : Char := Char.ofNat (48 + d % 10)

/-- Decimal rendering with explicit fuel (structural recursion, so that the
kernel can evaluate it); `fuel > n` suffices. -/
def natCharsAux : Nat → Nat → PyStr
  | 0, _ => []
  | fuel + 1, n =>
    if n < 10 then [digitChar n]
    else natCharsAux fuel (n / 10) ++ [digitChar (n % 10)]

/-- Python `str(n)` / f-string rendering of a non-negative integer. -/
def natChars (n : Nat) : PyStr := natCharsAux (n + 1) n

theorem digitChar_toNat (d : Nat) : (digitChar d).toNat = 48 + d % 10 := by
  have hlt : d % 10 < 10 := Nat.mod_lt _ (by omega)
  have hval : Nat.isValidChar (48 + d % 10) := Or.inl (by omega)
  simp only [digitChar, Char.ofNat, hval, dif_pos]
  simp only [Char.toNat, Char.ofNatAux]
  rfl

theorem mem_natCharsAux_toNat {fuel : Nat} :
    ∀ {n : Nat} {c : Char}, c ∈ natCharsAux fuel n → 48 ≤ c.toNat ∧ c.toNat ≤ 57 := by
  induction fuel with
  | zero =>
    intro n c h
    simp [natCharsAux] at h
  | succ fuel ih =>
    intro n c h
    rw [natCharsAux] at h
    split at h
    · simp only [List.mem_singleton] at h
      subst h
      have h10 : n % 10 < 10 := Nat.mod_lt n (by omega)
      rw [digitChar_toNat]
      omega
    · rcases List.mem_append.1 h with h' | h'
      · exact ih h'
      · simp only [List.mem_singleton] at h'
        subst h'
        have h10 : n % 10 % 10 < 10 := Nat.mod_lt _ (by omega)
        rw [digitChar_toNat]
        omega

theorem mem_natChars_toNat {n : Nat} {c : Char} (h : c ∈ natChars n) :
    48 ≤ c.toNat ∧ c.toNat ≤ 57 :=
  mem_natCharsAux_toNat h

/-- The numeric value of a decimal digit string; left inverse of `natChars`. -/
def natVal (s : PyStr) : Nat := s.foldl (fun a c => a * 10 + (c.toNat - 48)) 0

theorem natVal_aux (s : PyStr) (a : Nat) :
    s.foldl (fun a c => a * 10 + (c.toNat - 48)) a =
      a * 10 ^ s.length + natVal s := by
  induction s generalizing a with
  | nil => simp [natVal]
  | cons c cs ih =>
    simp only [List.foldl_cons, natVal, List.length_cons]
    rw [ih, ih (0 * 10 + (c.toNat - 48))]
    ring

theorem natVal_natCharsAux :
    ∀ (fuel : Nat) {n : Nat}, n < fuel → natVal (natCharsAux fuel n) = n := by
  intro fuel
  induction fuel with
  | zero =>
    intro n hn
    omega
  | succ fuel ih =>
    intro n hn
    rw [natCharsAux]
    split
    · rename_i h
      simp [natVal, digitChar_toNat, Nat.mod_eq_of_lt h]
    · rename_i h
      have hlt : n / 10 < fuel := by
        have hd : n / 10 < n := Nat.div_lt_self (by omega) (by omega : (1 : Nat) < 10)
        omega
      have ihd := ih hlt
      simp only [natVal, List.foldl_append, List.foldl_cons, List.foldl_nil]
      rw [show (natCharsAux fuel (n / 10)).foldl (fun a c => a * 10 + (c.toNat - 48)) 0 =
        natVal (natCharsAux fuel (n / 10)) from rfl, ihd, digitChar_toNat]
      have h10 : n % 10 % 10 = n % 10 := Nat.mod_mod_of_dvd n (by omega)
      omega

theorem natVal_natChars (n : Nat) : natVal (natChars n) = n :=
  natVal_natCharsAux (n + 1) (Nat.lt_succ_self n)

theorem natChars_injective {m n : Nat} (h : natChars m = natChars n) : m = n := by
  have := natVal_natChars m
  rw [h, natVal_natChars] at this
  omega

/-- A message flowing through the pipeline (`cascade_base.Message`).  The
payload is an opaque JSON-serialisable value of type `α`; metadata maps string
keys to string values (the engine itself only ever writes string values). -/
structure Message (α : Type) where
  cascade_id : PyStr
  payload : α
  metadata : List (PyStr × PyStr)
  deriving DecidableEq

/-- `Message.derive_cascade_id` from `cascade_base.py`: extend the parent's
cascade id with `/step_name`, then `:k1=v1,k2=v2,...` for the key-sorted
parameter bindings; an empty parent id contributes no leading `/`. -/
def Message.derive_cascade_id {α : Type} (m : Message α) (step_name : PyStr)
    (params : List (PyStr × PyStr)) : PyStr :=
  let next_id := (if m.cascade_id = [] then [] else m.cascade_id ++ ['/']) ++ step_name
  if params = [] then next_id
  else
    next_id ++ ':' ::
      joinChar ',' ((pySortPairs params).map (fun kv => kv.1 ++ '=' :: kv.2))

/-- `Message.merge_cascade_ids` from `cascade_base.py`: sort the parent ids,
join them with `;`, and append `@step_name`. -/
def Message.merge_cascade_ids (cascade_ids : List PyStr) (step_name : PyStr) : PyStr :=
  joinChar ';' (pySortStrs cascade_ids) ++ '@' :: step_name

/-- Extract the step name from a path token (`parse_step_name` inside
`CascadeManager.unroll`): everything before the first `:`. -/
def parse_step_name (step_spec : PyStr) : PyStr :=
  match breakAtChar ':' step_spec with
  | some ab => ab.1
  | none => step_spec

/-- Parsing of a cascade-id path per §3 of the spec: split the path on `/`;
the prefix is everything but the last token; the last token splits on the
first `:` into the step name and the parameter string, which splits on `,`
into `key=value` bindings (each split at its first `=`). -/
def parseCascadeId (id : PyStr) : PyStr × PyStr × List (PyStr × PyStr) :=
  let toks := splitChar '/' id
  let pre := joinChar '/' toks.dropLast
  let last := toks.getLastD []
  match breakAtChar ':' last with
  | none => (pre, last, [])
  | some sp =>
    (pre, sp.1,
      (splitChar ',' sp.2).map (fun kv =>
        match breakAtChar '=' kv with
        | some b => (b.1, b.2)
        | none => (kv, [])))

/-- Lookup in a Python dict modelled as an insertion-ordered association
list: `d.get(k)` / `d[k]` / `k in d`. -/
def dGet {β : Type} : List (PyStr × β) → PyStr → Option β
  | [], _ => none
  | kv :: rest, k => if kv.1 = k then some kv.2 else dGet rest k

/-- Assignment `d[k] = v` on a Python dict: overwrite the entry if the key is
present (keeping its position), otherwise append the new entry at the end. -/
def dictSet {β : Type} : List (PyStr × β) → PyStr → β → List (PyStr × β)
  | [], k, v => [(k, v)]
  | kv :: rest, k, v => if kv.1 = k then (k, v) :: rest else kv :: dictSet rest k v

/-- Python `d.update(d2)` on dicts modelled as association lists. -/
def dictUpdate {β : Type} (d : List (PyStr × β)) (d2 : List (PyStr × β)) :
    List (PyStr × β) :=
  d2.foldl (fun acc kv => dictSet acc kv.1 kv.2) d

theorem dGet_dictSet {β : Type} (d : List (PyStr × β)) (k k' : PyStr) (v : β) :
    dGet (dictSet d k v) k' = if k' = k then some v else dGet d k' := by
  induction d with
  | nil =>
    by_cases h : k' = k
    · simp [dictSet, dGet, h]
    · simp [dictSet, dGet, h, Ne.symm h]
  | cons kv rest ih =>
    by_cases h1 : kv.1 = k
    · by_cases h2 : k' = k
      · simp [dictSet, dGet, h1, h2]
      · have h3 : kv.1 ≠ k' := by rw [h1]; exact Ne.symm h2
        simp [dictSet, dGet, h1, h2, Ne.symm h2, h3]
    · by_cases h2 : kv.1 = k'
      · have h4 : ¬k' = k := fun hh => h1 (h2.trans hh)
        simp [dictSet, dGet, h1, h2, h4]
      · simp [dictSet, dGet, h1, h2, ih]

theorem dictSet_of_dGet_none {β : Type} {d : List (PyStr × β)} {k : PyStr}
    (h : dGet d k = none) (v : β) : dictSet d k v = d ++ [(k, v)] := by
  induction d with
  | nil => rfl
  | cons kv rest ih =>
    by_cases h1 : kv.1 = k
    · simp [dGet, h1] at h
    · simp only [dGet, if_neg h1] at h
      simp [dictSet, if_neg h1, ih h]

theorem dGet_dictUpdate_of_not_mem {β : Type} {l : List (PyStr × β)} {k : PyStr}
    (hl : ∀ kv ∈ l, kv.1 ≠ k) (d : List (PyStr × β)) :
    dGet (dictUpdate d l) k = dGet d k := by
  induction l generalizing d with
  | nil => rfl
  | cons kv rest ih =>
    have : dictUpdate d (kv :: rest) = dictUpdate (dictSet d kv.1 kv.2) rest := rfl
    rw [this, ih (fun kv' h => hl kv' (List.mem_cons_of_mem _ h)),
      dGet_dictSet, if_neg (fun h => hl kv (by simp) h.symm)]

theorem dGet_dictUpdate_of_mem {β : Type} {l : List (PyStr × β)} {k : PyStr} {v : β}
    (hl : dGet l k = some v) (hnd : (l.map Prod.fst).Nodup)
    (d : List (PyStr × β)) :
    dGet (dictUpdate d l) k = some v := by
  induction l generalizing d with
  | nil => simp [dGet] at hl
  | cons kv rest ih =>
    simp only [List.map_cons, List.nodup_cons] at hnd
    simp only [dGet] at hl
    have hstep : dictUpdate d (kv :: rest) = dictUpdate (dictSet d kv.1 kv.2) rest := rfl
    by_cases h1 : kv.1 = k
    · rw [if_pos h1] at hl
      obtain rfl := Option.some_injective _ hl
      have hnotin : ∀ kv' ∈ rest, kv'.1 ≠ k := by
        intro kv' hkv' heq
        exact hnd.1 (h1 ▸ heq ▸ List.mem_map_of_mem Prod.fst hkv')
      rw [hstep, dGet_dictUpdate_of_not_mem hnotin, dGet_dictSet, if_pos h1.symm]
    · rw [if_neg h1] at hl
      rw [hstep]
      exact ih hl hnd.2 (dictSet d kv.1 kv.2)

/-- A row of the `messages` table created by `SQLiteStorage._init_db`
(`stream_name, cascade_id, payload, metadata`, primary key on the first two
columns; the `created_at` timestamp column is irrelevant to the claims). -/
structure Row (α : Type) where
  stream_name : PyStr
  cascade_id : PyStr
  payload : α
  metadata : List (PyStr × PyStr)
  deriving DecidableEq

/-- `SQLiteStorage.store`: `INSERT` into the `messages` table.  SQLite raises
an integrity error when the primary key `(stream_name, cascade_id)` is already
present, and the surrounding transaction rolls back, so the error case leaves
the table unchanged. -/
def SQLiteStorage.store {α : Type} (tbl : List (Row α)) (stream_name : PyStr)
    (msg : Message α) : Except PyStr (List (Row α)) :=
  if tbl.any (fun r => r.stream_name = stream_name ∧ r.cascade_id = msg.cascade_id) then
    Except.error ("UNIQUE constraint failed".toList)
  else
    Except.ok (tbl ++ [⟨stream_name, msg.cascade_id, msg.payload, msg.metadata⟩])

/-- Tables reachable from the empty table created by `_init_db` through
successful `store` calls. -/
inductive StorageReach {α : Type} : List (Row α) → Prop
  | init : StorageReach []
  | step {tbl tbl' : List (Row α)} {s : PyStr} {m : Message α} :
      StorageReach tbl → SQLiteStorage.store tbl s m = Except.ok tbl' → StorageReach tbl'

/-- One subscription record of a stream: `(sub_id, queue, weight)` as kept in
`Stream.subs` (a dict ordered by registration). -/
abbrev SubEntry (α : Type) := PyStr × List (Message α) × Nat

/-- `self.subs[sub_id][0].put(msg)`: append `msg` to the queue of the
subscription named `sid`. -/
def enqueue {α : Type} : List (SubEntry α) → PyStr → Message α → List (SubEntry α)
  | [], _, _ => []
  | s :: rest, sid, m =>
    if s.1 = sid then (s.1, s.2.1 ++ [m], s.2.2) :: rest
    else s :: enqueue rest sid m

/-- The loop of `Stream.put` over `self.subs.items()` that delivers `msg` to
every weight-0 (broadcast) subscription; `acc` is the mutable queue state. -/
def bcastGo {α : Type} (msg : Message α) :
    List (SubEntry α) → List (SubEntry α) → List (SubEntry α)
  | [], acc => acc
  | s :: rest, acc =>
    bcastGo msg rest (if s.2.2 = 0 then enqueue acc s.1 msg else acc)

/-- The virtual subscriber list of `Stream.put`: each subscription id repeated
`weight` times, in registration order. -/
def weightedSubs {α : Type} (subs : List (SubEntry α)) : List PyStr :=
  subs.flatMap (fun s => List.replicate s.2.2 s.1)

/-- The index `hash(cascade_id) % len(weighted_subs)` (Python `%` on a
positive modulus is non-negative). -/
def hashIdx (h : Int) (n : Nat) (hn : 0 < n) : Fin n :=
  ⟨(h % (n : Int)).toNat, by
    have h0 : 0 ≤ h % (n : Int) := Int.emod_nonneg h (by omega)
    have h1 : h % (n : Int) < (n : Int) := Int.emod_lt_of_pos h (by omega)
    omega⟩

/-- The subscription selected by the weighted-routing branch of `Stream.put`,
or `none` when `weighted_subs` is empty and the branch is skipped. -/
def pickSub {α : Type} (subs : List (SubEntry α)) (pyHash : PyStr → Int)
    (cid : PyStr) : Option PyStr :=
  let w := weightedSubs subs
  if hw : 0 < w.length then some (w.get (hashIdx (pyHash cid) w.length hw)) else none

/-- `Stream.put` (the fan-out part, after the message has been persisted):
return unchanged when there are no subscriptions, deliver to every weight-0
subscription, then deliver to the hash-selected weighted subscription when the
virtual list is non-empty.  `pyHash` abstracts Python's `hash`. -/
def Stream.put {α : Type} (subs : List (SubEntry α)) (pyHash : PyStr → Int)
    (msg : Message α) : List (SubEntry α) :=
  if subs.isEmpty then subs
  else
    let subs1 := bcastGo msg subs subs
    match pickSub subs pyHash msg.cascade_id with
    | some sid => enqueue subs1 sid msg
    | none => subs1

/-- `Stream.is_empty`: every subscription queue of the stream is empty. -/
def Stream.is_empty {α : Type} (subs : List (SubEntry α)) : Bool :=
  subs.all (fun s => s.2.1.isEmpty)

/-- The quiescence-tracking state of `CascadeManager`: the streams (by name,
each with its subscription queues), the registered step ids, the idle step
ids, and the single-shot completion event. -/
structure CascadeManager (α : Type) where
  streams : List (PyStr × List (SubEntry α))
  steps : Finset PyStr
  idle_steps : Finset PyStr
  completion_event : Bool

/-- `CascadeManager._check_completion`: set the completion event when the
number of idle steps equals the number of registered steps and every stream's
queues are all empty; otherwise leave the state unchanged. -/
def CascadeManager.check_completion {α : Type} (m : CascadeManager α) :
    CascadeManager α :=
  if m.idle_steps.card = m.steps.card ∧
      m.streams.all (fun st => Stream.is_empty st.2) = true then
    { m with completion_event := true }
  else m

/-- `CascadeManager.mark_step_idle`: register the step if new, add it to the
idle set, then run the completion check. -/
def CascadeManager.mark_step_idle {α : Type} (m : CascadeManager α)
    (step_id : PyStr) : CascadeManager α :=
  CascadeManager.check_completion
    { m with steps := insert step_id m.steps,
             idle_steps := insert step_id m.idle_steps }

/-- `CascadeManager.mark_step_active`: register the step if new and remove it
from the idle set. -/
def CascadeManager.mark_step_active {α : Type} (m : CascadeManager α)
    (step_id : PyStr) : CascadeManager α :=
  { m with steps := insert step_id m.steps,
           idle_steps := m.idle_steps.erase step_id }

/-- A value stored in the mapping returned by `CascadeManager.unroll`: either
an ancestral payload, or (under a `root{i}` key) the nested mapping obtained
by unrolling one merge parent. -/
inductive UnrollVal (α : Type) where
  | payload : α → UnrollVal α
  | dict : List (PyStr × α) → UnrollVal α
  deriving DecidableEq

/-- The walk of `unroll_single_path` inside `CascadeManager.unroll`: process
the remaining tokens, carrying the accumulated path, the result dict and the
`seen_steps` duplicate counters. -/
def unrollSinglePathGo {α : Type} (lookup : PyStr → Option α) :
    List PyStr → List PyStr → List (PyStr × α) → List (PyStr × Nat) →
    List (PyStr × α)
  | [], _, res, _ => res
  | step :: rest, cur, res, seen =>
    if step = [] then unrollSinglePathGo lookup rest cur res seen
    else
      match lookup (joinChar '/' (cur ++ [step])) with
      | none => unrollSinglePathGo lookup rest (cur ++ [step]) res seen
      | some p =>
        let sn := parse_step_name step
        if (dGet res sn).isSome then
          let cnt := (dGet seen sn).getD 0
          unrollSinglePathGo lookup rest (cur ++ [step])
            (dictSet res (sn ++ '_' :: natChars cnt) p) (dictSet seen sn (cnt + 1))
        else
          unrollSinglePathGo lookup rest (cur ++ [step]) (dictSet res sn p) seen

/-- `unroll_single_path`: walk a `/`-separated path left to right, skipping
empty tokens, recording `step_name → payload` for every accumulated prefix id
present in storage, with `_0`, `_1`, … suffixes for repeated step names.
`lookup` abstracts `storage.get_message` (restricted to the payload, which is
all the walk uses). -/
def unroll_single_path {α : Type} (lookup : PyStr → Option α) (path : PyStr) :
    List (PyStr × α) :=
  unrollSinglePathGo lookup (splitChar '/' path) [] [] []

/-- The synthetic key `root{i}` used for merge parents. -/
def rootKey (i : Nat) : PyStr := "root".toList ++ natChars i

/-- `CascadeManager.unroll`: split the cascade id on the first `@`; unroll
each `;`-separated parent under the synthetic key `root{i}`; then unroll the
main path and merge it into the result with `dict.update`. -/
def CascadeManager.unroll {α : Type} (lookup : PyStr → Option α)
    (msg : Message α) : List (PyStr × UnrollVal α) :=
  match breakAtChar '@' msg.cascade_id with
  | some rp =>
    let roots := splitChar ';' rp.1
    let base := roots.enum.foldl
      (fun acc ir =>
        dictSet acc (rootKey ir.1) (UnrollVal.dict (unroll_single_path lookup ir.2))) []
    dictUpdate base
      ((unroll_single_path lookup rp.2).map (fun kv => (kv.1, UnrollVal.payload kv.2)))
  | none =>
    dictUpdate []
      ((unroll_single_path lookup msg.cascade_id).map
        (fun kv => (kv.1, UnrollVal.payload kv.2)))

/-- `Step._make_step_id` for a step-granularity id (`worker_id = None`): the
step name, followed by `[k1=v1,...]` for the key-sorted parameters with each
value truncated to 40 characters. -/
def Step.make_step_id (name : PyStr) (params : List (PyStr × PyStr)) : PyStr :=
  if params = [] then name
  else
    name ++ '[' ::
      joinChar ',' ((pySortPairs params).map (fun kv => kv.1 ++ '=' :: kv.2.take 40)) ++ [']']

/-- The deterministic id `f"{name}:count={i}"` generated by `SourceStep.run`. -/
def srcCascadeId (name : PyStr) (i : Nat) : PyStr :=
  name ++ ':' :: ("count=".toList ++ natChars i)

/-- The `for i in range(count)` loop of `SourceStep.run`: `existing` is the
output stream's `check_exists` against storage, `gen` gives the result of the
`g`-th call of the user `generate()` coroutine. -/
def SourceStep.runLoop {α : Type} (name : PyStr) (existing : PyStr → Bool)
    (gen : Nat → Option α) : List Nat → Nat → List (Message α)
  | [], _ => []
  | i :: rest, g =>
    if existing (srcCascadeId name i) then
      SourceStep.runLoop name existing gen rest g
    else
      match gen g with
      | some d =>
        ⟨srcCascadeId name i, d, [("source_step".toList, name)]⟩ ::
          SourceStep.runLoop name existing gen rest (g + 1)
      | none => SourceStep.runLoop name existing gen rest (g + 1)

/-- The observable outcome of one `SourceStep.run` invocation: the messages
published to the output stream, in order, and the step ids passed to
`mark_step_idle`, in order. -/
structure SourceOutcome (α : Type) where
  published : List (Message α)
  idle_marked : List PyStr

/-- `SourceStep.run` on the happy path (no exception raised): iterate
`i in range(int(params.get('count', 1)))`, publish fresh messages, then mark
the step id idle. -/
def SourceStep.run {α : Type} (name : PyStr) (params : List (PyStr × PyStr))
    (countParam : Option Nat) (existing : PyStr → Bool) (gen : Nat → Option α) :
    SourceOutcome α :=
  ⟨SourceStep.runLoop name existing gen (List.range (countParam.getD 1)) 0,
   [Step.make_step_id name params]⟩

/-- The loop of `SourceStep.run` when `generate()` may raise: the `g`-th call
either raises (`Except.error`) or returns an optional payload.  The boolean
records whether the loop ran to completion. -/
def SourceStep.runLoopE {α : Type} (name : PyStr) (existing : PyStr → Bool)
    (genE : Nat → Except Unit (Option α)) : List Nat → Nat → List (Message α) × Bool
  | [], _ => ([], true)
  | i :: rest, g =>
    if existing (srcCascadeId name i) then
      SourceStep.runLoopE name existing genE rest g
    else
      match genE g with
      | Except.error _ => ([], false)
      | Except.ok none => SourceStep.runLoopE name existing genE rest (g + 1)
      | Except.ok (some d) =>
        let r := SourceStep.runLoopE name existing genE rest (g + 1)
        (⟨srcCascadeId name i, d, [("source_step".toList, name)]⟩ :: r.1, r.2)

/-- `SourceStep.run` including its exception handler: on an exception the
remaining iterations are abandoned and the handler calls
`self.manager.mark_step_idle(self.name)` — with the bare `self.name`, not the
parameterised `self._make_step_id()` used on the happy path. -/
def SourceStep.runE {α : Type} (name : PyStr) (params : List (PyStr × PyStr))
    (countParam : Option Nat) (existing : PyStr → Bool)
    (genE : Nat → Except Unit (Option α)) : SourceOutcome α :=
  let r := SourceStep.runLoopE name existing genE (List.range (countParam.getD 1)) 0
  ⟨r.1, [if r.2 then Step.make_step_id name params else name]⟩

/-- Observe one subscription of a stream: the queue and weight registered
under `sid`. -/
def subGet {α : Type} : List (SubEntry α) → PyStr → Option (List (Message α) × Nat)
  | [], _ => none
  | s :: rest, sid => if s.1 = sid then some s.2 else subGet rest sid

theorem subGet_some_mem {α : Type} {subs : List (SubEntry α)} {sid : PyStr}
    {q : List (Message α)} {w : Nat} (h : subGet subs sid = some (q, w)) :
    (sid, q, w) ∈ subs := by
  induction subs with
  | nil => simp [subGet] at h
  | cons s rest ih =>
    by_cases h1 : s.1 = sid
    · rw [subGet, if_pos h1] at h
      have h2 : s.2 = (q, w) := Option.some_injective _ h
      have : s = (sid, q, w) := by
        rw [← h1, ← h2]
      exact this ▸ List.mem_cons_self s rest
    · rw [subGet, if_neg h1] at h
      exact List.mem_cons_of_mem _ (ih h)

theorem mem_subGet {α : Type} {subs : List (SubEntry α)} {sid : PyStr}
    {q : List (Message α)} {w : Nat}
    (hnd : (subs.map (fun s => s.1)).Nodup) (hm : (sid, q, w) ∈ subs) :
    subGet subs sid = some (q, w) := by
  induction subs with
  | nil => simp at hm
  | cons s rest ih =>
    simp only [List.map_cons, List.nodup_cons] at hnd
    rcases List.mem_cons.1 hm with h | h
    · subst h
      simp [subGet]
    · have h1 : s.1 ≠ sid := by
        intro heq
        exact hnd.1 (heq ▸ List.mem_map_of_mem (fun s => s.1) h)
      rw [subGet, if_neg h1]
      exact ih hnd.2 h

theorem nodup_entry_unique {α : Type} {subs : List (SubEntry α)} {sid : PyStr}
    {q q' : List (Message α)} {w w' : Nat}
    (hnd : (subs.map (fun s => s.1)).Nodup)
    (h1 : (sid, q, w) ∈ subs) (h2 : (sid, q', w') ∈ subs) : q = q' ∧ w = w' := by
  have e1 := mem_subGet hnd h1
  have e2 := mem_subGet hnd h2
  rw [e1] at e2
  have := Option.some_injective _ e2
  exact ⟨congrArg Prod.fst this, congrArg Prod.snd this⟩

theorem subGet_enqueue_self {α : Type} {subs : List (SubEntry α)} {sid : PyStr}
    {q : List (Message α)} {w : Nat} (m : Message α)
    (h : subGet subs sid = some (q, w)) :
    subGet (enqueue subs sid m) sid = some (q ++ [m], w) := by
  induction subs with
  | nil => simp [subGet] at h
  | cons s rest ih =>
    by_cases h1 : s.1 = sid
    · rw [subGet, if_pos h1] at h
      have h2 : s.2 = (q, w) := Option.some_injective _ h
      simp [enqueue, if_pos h1, subGet, h2]
    · rw [subGet, if_neg h1] at h
      simp [enqueue, if_neg h1, subGet, ih h]

theorem subGet_enqueue_other {α : Type} (subs : List (SubEntry α)) {sid sid' : PyStr}
    (m : Message α) (hne : sid' ≠ sid) :
    subGet (enqueue subs sid m) sid' = subGet subs sid' := by
  induction subs with
  | nil => rfl
  | cons s rest ih =>
    by_cases h1 : s.1 = sid
    · have h2 : s.1 ≠ sid' := fun hh => hne (hh.symm.trans h1)
      simp [enqueue, if_pos h1, subGet, if_neg h2, h2]
    · by_cases h2 : s.1 = sid'
      · simp [enqueue, if_neg h1, subGet, if_pos h2]
      · simp [enqueue, if_neg h1, subGet, if_neg h2, ih]

theorem subGet_bcastGo_other {α : Type} (m : Message α) {l : List (SubEntry α)}
    (acc : List (SubEntry α)) {sid : PyStr}
    (h : ∀ s ∈ l, s.2.2 = 0 → s.1 ≠ sid) :
    subGet (bcastGo m l acc) sid = subGet acc sid := by
  induction l generalizing acc with
  | nil => rfl
  | cons s rest ih =>
    rw [bcastGo]
    rw [ih _ (fun s' hs' => h s' (List.mem_cons_of_mem _ hs'))]
    by_cases hw : s.2.2 = 0
    · rw [if_pos hw, subGet_enqueue_other _ _ (fun hh => h s (by simp) hw hh.symm)]
    · rw [if_neg hw]

theorem subGet_bcastGo_zero {α : Type} (m : Message α) {l : List (SubEntry α)}
    (acc : List (SubEntry α)) {sid : PyStr} {q0 qa : List (Message α)} {wa : Nat}
    (hnd : (l.map (fun s => s.1)).Nodup) (hm : (sid, q0, 0) ∈ l)
    (ha : subGet acc sid = some (qa, wa)) :
    subGet (bcastGo m l acc) sid = some (qa ++ [m], wa) := by
  induction l generalizing acc with
  | nil => simp at hm
  | cons s rest ih =>
    simp only [List.map_cons, List.nodup_cons] at hnd
    rw [bcastGo]
    rcases List.mem_cons.1 hm with h | h
    · subst h
      rw [if_pos rfl]
      have hrest : ∀ s' ∈ rest, s'.2.2 = 0 → s'.1 ≠ sid := by
        intro s' hs' _ heq
        exact hnd.1 (heq ▸ List.mem_map_of_mem (fun s => s.1) hs')
      rw [subGet_bcastGo_other m _ hrest]
      exact subGet_enqueue_self m ha
    · have hs1 : s.1 ≠ sid := by
        intro heq
        exact hnd.1 (heq ▸ List.mem_map_of_mem (fun s => s.1) h)
      by_cases hw : s.2.2 = 0
      · rw [if_pos hw]
        exact ih (enqueue acc s.1 m) hnd.2 h
          (by rw [subGet_enqueue_other _ _ (Ne.symm hs1)]; exact ha)
      · rw [if_neg hw]
        exact ih acc hnd.2 h ha

theorem mem_weightedSubs {α : Type} {subs : List (SubEntry α)} {sid : PyStr}
    (h : sid ∈ weightedSubs subs) :
    ∃ q w, (sid, q, w) ∈ subs ∧ 0 < w := by
  rcases List.mem_flatMap.1 h with ⟨s, hs, hrep⟩
  rcases List.eq_of_mem_replicate hrep with rfl
  refine ⟨s.2.1, s.2.2, ?_, ?_⟩
  · simpa using hs
  · rcases Nat.eq_zero_or_pos s.2.2 with h0 | h0
    · rw [h0] at hrep
      simp [List.replicate] at hrep
    · exact h0

theorem weightedSubs_length_pos {α : Type} {subs : List (SubEntry α)}
    (hpos : ∃ s ∈ subs, 0 < s.2.2) : 0 < (weightedSubs subs).length := by
  obtain ⟨s, hs, hw⟩ := hpos
  have : s.1 ∈ weightedSubs subs :=
    List.mem_flatMap.2 ⟨s, hs, List.mem_replicate.2 ⟨by omega, rfl⟩⟩
  exact List.length_pos.2 (List.ne_nil_of_mem this)

theorem weightedSubs_eq_nil {α : Type} {subs : List (SubEntry α)}
    (hzero : ∀ s ∈ subs, s.2.2 = 0) : weightedSubs subs = [] := by
  induction subs with
  | nil => rfl
  | cons s rest ih =>
    have h0 : s.2.2 = 0 := hzero s (by simp)
    simp only [weightedSubs, List.flatMap_cons, h0, List.replicate, List.nil_append]
    exact ih (fun s' hs' => hzero s' (List.mem_cons_of_mem _ hs'))

theorem pickSub_some {α : Type} (subs : List (SubEntry α)) (pyHash : PyStr → Int)
    (cid : PyStr) (hpos : ∃ s ∈ subs, 0 < s.2.2) :
    ∃ sid, pickSub subs pyHash cid = some sid ∧ sid ∈ weightedSubs subs := by
  have hlen : 0 < (weightedSubs subs).length := weightedSubs_length_pos hpos
  refine ⟨(weightedSubs subs).get (hashIdx (pyHash cid) _ hlen),
    by simp [pickSub, hlen], ?_⟩
  exact List.get_mem _ _ _

theorem pickSub_none {α : Type} (subs : List (SubEntry α)) (pyHash : PyStr → Int)
    (cid : PyStr) (hzero : ∀ s ∈ subs, s.2.2 = 0) :
    pickSub subs pyHash cid = none := by
  simp [pickSub, weightedSubs_eq_nil hzero]

theorem enqueue_map_fst {α : Type} (subs : List (SubEntry α)) (sid : PyStr)
    (m : Message α) :
    (enqueue subs sid m).map (fun s => s.1) = subs.map (fun s => s.1) := by
  induction subs with
  | nil => rfl
  | cons s rest ih =>
    by_cases h1 : s.1 = sid
    · simp [enqueue, if_pos h1, h1]
    · simp [enqueue, if_neg h1, ih]

theorem enqueue_eq_map {α : Type} {subs : List (SubEntry α)}
    (hnd : (subs.map (fun s => s.1)).Nodup) (sid : PyStr) (m : Message α) :
    enqueue subs sid m =
      subs.map (fun s => if s.1 = sid then (s.1, s.2.1 ++ [m], s.2.2) else s) := by
  induction subs with
  | nil => rfl
  | cons s rest ih =>
    simp only [List.map_cons, List.nodup_cons] at hnd
    by_cases h1 : s.1 = sid
    · rw [enqueue, if_pos h1, List.map_cons, if_pos h1]
      have : ∀ s' ∈ rest, (if s'.1 = sid then (s'.1, s'.2.1 ++ [m], s'.2.2) else s') = s' := by
        intro s' hs'
        have : s'.1 ≠ sid := by
          intro heq
          exact hnd.1 (h1 ▸ heq ▸ List.mem_map_of_mem (fun s => s.1) hs')
        rw [if_neg this]
      rw [List.map_congr_left this]
      simp
    · rw [enqueue, if_neg h1, List.map_cons, if_neg h1, ih hnd.2]

theorem bcastGo_all_zero {α : Type} (m : Message α) :
    ∀ (l acc : List (SubEntry α)),
      (l.map (fun s => s.1)).Nodup → (∀ s ∈ l, s.2.2 = 0) →
      (acc.map (fun s => s.1)).Nodup →
      bcastGo m l acc =
        acc.map (fun s =>
          if s.1 ∈ l.map (fun s' => s'.1) then (s.1, s.2.1 ++ [m], s.2.2) else s) := by
  intro l
  induction l with
  | nil =>
    intro acc _ _ _
    simp [bcastGo]
  | cons s rest ih =>
    intro acc hnd hzero hand
    simp only [List.map_cons, List.nodup_cons] at hnd
    rw [bcastGo, if_pos (hzero s (by simp)),
      ih (enqueue acc s.1 m) hnd.2 (fun s' hs' => hzero s' (List.mem_cons_of_mem _ hs'))
        (by rw [enqueue_map_fst]; exact hand),
      enqueue_eq_map hand, List.map_map]
    refine List.map_congr_left ?_
    intro e _
    by_cases h1 : e.1 = s.1
    · have h2 : e.1 ∉ rest.map (fun s' => s'.1) := h1 ▸ hnd.1
      simp only [Function.comp, if_pos h1, h2, if_neg h2, List.map_cons, List.mem_cons]
      simp [h1]
    · by_cases h2 : e.1 ∈ rest.map (fun s' => s'.1)
      · simp [Function.comp, if_neg h1, h2]
      · simp [Function.comp, if_neg h1, h2, h1]

theorem pickSub_mem {α : Type} {subs : List (SubEntry α)} {pyHash : PyStr → Int}
    {cid sid : PyStr} (h : pickSub subs pyHash cid = some sid) :
    sid ∈ weightedSubs subs := by
  by_cases hw : 0 < (weightedSubs subs).length
  · have h' : pickSub subs pyHash cid =
        some ((weightedSubs subs).get (hashIdx (pyHash cid) _ hw)) := by
      simp [pickSub, hw]
    obtain rfl : (weightedSubs subs).get (hashIdx (pyHash cid) _ hw) = sid :=
      Option.some_injective _ (h'.symm.trans h)
    exact List.get_mem _ _ _
  · have h' : pickSub subs pyHash cid = none := by simp [pickSub, hw]
    rw [h'] at h
    exact absurd h (by simp)

/-- C6.  Every weight-0 subscription of a stream receives every message
published via `Stream.put`: its queue is extended by exactly that message,
whatever the other subscriptions are and whichever weighted subscription is
selected. -/
theorem claim_C6_broadcast {α : Type} (subs : List (SubEntry α))
    (pyHash : PyStr → Int) (msg : Message α) (sid : PyStr) (q : List (Message α))
    (hnd : (subs.map (fun s => s.1)).Nodup) (hmem : (sid, q, 0) ∈ subs) :
    subGet (Stream.put subs pyHash msg) sid = some (q ++ [msg], 0) := by
  have hbe : subs.isEmpty = false := by
    cases subs with
    | nil => simp at hmem
    | cons s rest => rfl
  have hb : subGet (bcastGo msg subs subs) sid = some (q ++ [msg], 0) :=
    subGet_bcastGo_zero msg subs hnd hmem (mem_subGet hnd hmem)
  rw [Stream.put, if_neg (by simp [hbe])]
  cases hp : pickSub subs pyHash msg.cascade_id with
  | none => exact hb
  | some sel =>
    obtain ⟨q', w', hmem', hw'⟩ := mem_weightedSubs (pickSub_mem hp)
    have hne : sid ≠ sel := by
      rintro rfl
      obtain ⟨_, hww⟩ := nodup_entry_unique hnd hmem hmem'
      omega
    rw [subGet_enqueue_other _ _ hne]
    exact hb

/-- C7.  With at least one positive weight, `Stream.put` routes by
`hash(cascade_id)` over the virtual list: two messages with the same cascade
id go to the same positive-weight subscription, the selected subscription
receives exactly the message, and every other positive-weight subscription
receives nothing. -/
theorem claim_C7_routing {α : Type} (subs : List (SubEntry α))
    (pyHash : PyStr → Int) (m1 m2 : Message α)
    (hnd : (subs.map (fun s => s.1)).Nodup)
    (hpos : ∃ s ∈ subs, 0 < s.2.2)
    (hid : m1.cascade_id = m2.cascade_id) :
    ∃ sid q w, 0 < w ∧ (sid, q, w) ∈ subs ∧
      pickSub subs pyHash m1.cascade_id = some sid ∧
      pickSub subs pyHash m2.cascade_id = some sid ∧
      subGet (Stream.put subs pyHash m1) sid = some (q ++ [m1], w) ∧
      subGet (Stream.put subs pyHash m2) sid = some (q ++ [m2], w) ∧
      (∀ sid' q' w', (sid', q', w') ∈ subs → 0 < w' → sid' ≠ sid →
        subGet (Stream.put subs pyHash m1) sid' = some (q', w')) := by
  have hbe : subs.isEmpty = false := by
    obtain ⟨s, hs, _⟩ := hpos
    cases subs with
    | nil => simp at hs
    | cons _ _ => rfl
  obtain ⟨sel, hpick, hmemw⟩ := pickSub_some subs pyHash m1.cascade_id hpos
  obtain ⟨q, w, hmem, hw⟩ := mem_weightedSubs hmemw
  have hzero_ne : ∀ s ∈ subs, s.2.2 = 0 → s.1 ≠ sel := by
    intro s hs hz heq
    have hmem0 : (sel, s.2.1, 0) ∈ subs := by
      have : s = (sel, s.2.1, s.2.2) := by
        rw [← heq]
      rw [this, hz] at hs
      exact hs
    obtain ⟨_, hww⟩ := nodup_entry_unique hnd hmem hmem0
    omega
  have hput : ∀ m : Message α, m.cascade_id = m1.cascade_id →
      subGet (Stream.put subs pyHash m) sel = some (q ++ [m], w) := by
    intro m hm
    rw [Stream.put, if_neg (by simp [hbe]), hm, hpick]
    show subGet (enqueue (bcastGo m subs subs) sel m) sel = some (q ++ [m], w)
    have hX : subGet (bcastGo m subs subs) sel = some (q, w) := by
      rw [subGet_bcastGo_other m subs hzero_ne]
      exact mem_subGet hnd hmem
    exact subGet_enqueue_self m hX
  refine ⟨sel, q, w, hw, hmem, hpick, by rw [← hid]; exact hpick,
    hput m1 rfl, hput m2 hid.symm, ?_⟩
  intro sid' q' w' hmem' hw' hne
  rw [Stream.put, if_neg (by simp [hbe]), hpick]
  show subGet (enqueue (bcastGo m1 subs subs) sel m1) sid' = some (q', w')
  rw [subGet_enqueue_other _ _ hne]
  rw [subGet_bcastGo_other m1 subs (fun s hs hz heq => by
    have hmem0 : (sid', s.2.1, 0) ∈ subs := by
      have : s = (sid', s.2.1, s.2.2) := by rw [← heq]
      rw [this, hz] at hs
      exact hs
    obtain ⟨_, hww⟩ := nodup_entry_unique hnd hmem' hmem0
    omega)]
  exact mem_subGet hnd hmem'

/-- C10.  When every subscription has weight 0 the virtual list is empty, the
weighted branch is skipped for every cascade id (no modulo by zero), and
`Stream.put` simply appends the message to every queue. -/
theorem claim_C10_all_zero_weights {α : Type} (subs : List (SubEntry α))
    (pyHash : PyStr → Int) (msg : Message α)
    (hne : subs ≠ []) (hnd : (subs.map (fun s => s.1)).Nodup)
    (hzero : ∀ s ∈ subs, s.2.2 = 0) :
    (∀ cid, pickSub subs pyHash cid = none) ∧
    Stream.put subs pyHash msg = subs.map (fun s => (s.1, s.2.1 ++ [msg], s.2.2)) := by
  refine ⟨fun cid => pickSub_none subs pyHash cid hzero, ?_⟩
  have hbe : subs.isEmpty = false := by
    cases subs with
    | nil => exact absurd rfl hne
    | cons _ _ => rfl
  rw [Stream.put, if_neg (by simp [hbe]), pickSub_none subs pyHash msg.cascade_id hzero]
  rw [bcastGo_all_zero msg subs subs hnd hzero hnd]
  refine List.map_congr_left ?_
  intro s hs
  rw [if_pos (List.mem_map_of_mem (fun s' => s'.1) hs)]

/-- Concrete stream for the witnesses: a broadcast tap `t` and a weighted
worker subscription `w`. -/
def subsW : List (SubEntry Nat) := [("t".toList, [], 0), ("w".toList, [], 1)]

/-- Concrete all-broadcast stream for the C10 witness. -/
def subsZ : List (SubEntry Nat) := [("t".toList, [], 0), ("u".toList, [], 0)]

/-- A hash function instance for the witnesses. -/
def hashW : PyStr → Int := fun s => (s.length : Int) - 7

/-- Concrete messages for the witnesses. -/
def msgW : Message Nat := ⟨"a".toList, 5, []⟩

/-- A second message with the same cascade id as `msgW`. -/
def msgW2 : Message Nat := ⟨"a".toList, 6, []⟩

theorem claim_C6_broadcast_witness :
    (subsW.map (fun s => s.1)).Nodup ∧
    ("t".toList, ([] : List (Message Nat)), 0) ∈ subsW ∧
    subGet (Stream.put subsW hashW msgW) ("t".toList) = some ([msgW], 0) :=
  ⟨by decide, by decide,
    claim_C6_broadcast subsW hashW msgW ("t".toList) [] (by decide) (by decide)⟩

theorem claim_C7_routing_witness :
    (subsW.map (fun s => s.1)).Nodup ∧ (∃ s ∈ subsW, 0 < s.2.2) ∧
    msgW.cascade_id = msgW2.cascade_id ∧
    (∃ sid q w, 0 < w ∧ (sid, q, w) ∈ subsW ∧
      pickSub subsW hashW msgW.cascade_id = some sid ∧
      pickSub subsW hashW msgW2.cascade_id = some sid ∧
      subGet (Stream.put subsW hashW msgW) sid = some (q ++ [msgW], w) ∧
      subGet (Stream.put subsW hashW msgW2) sid = some (q ++ [msgW2], w) ∧
      (∀ sid' q' w', (sid', q', w') ∈ subsW → 0 < w' → sid' ≠ sid →
        subGet (Stream.put subsW hashW msgW) sid' = some (q', w'))) :=
  ⟨by decide, by decide, by decide,
    claim_C7_routing subsW hashW msgW msgW2 (by decide) (by decide) (by decide)⟩

theorem claim_C10_all_zero_weights_witness :
    subsZ ≠ [] ∧ (subsZ.map (fun s => s.1)).Nodup ∧ (∀ s ∈ subsZ, s.2.2 = 0) ∧
    ((∀ cid, pickSub subsZ hashW cid = none) ∧
      Stream.put subsZ hashW msgW = subsZ.map (fun s => (s.1, s.2.1 ++ [msgW], s.2.2))) :=
  ⟨by decide, by decide, by decide,
    claim_C10_all_zero_weights subsZ hashW msgW (by decide) (by decide) (by decide)⟩

/-- C1.  The completion event transitions to set only when, at the moment of
the check, the idle set equals the registered set and every stream's
subscription queues are all empty; `mark_step_idle` runs exactly this check,
and when either condition fails the check leaves the event as it was.
(The hypothesis `idle_steps ⊆ steps` is an invariant of the manager: both
marking operations insert into `steps` whatever they do to `idle_steps`.) -/
theorem claim_C1_completion {α : Type} (m : CascadeManager α) (sid : PyStr)
    (hsub : m.idle_steps ⊆ m.steps) :
    (CascadeManager.mark_step_idle m sid =
      CascadeManager.check_completion
        { m with steps := insert sid m.steps,
                 idle_steps := insert sid m.idle_steps }) ∧
    ((CascadeManager.mark_step_idle m sid).completion_event = true →
      m.completion_event = false →
      (insert sid m.idle_steps = insert sid m.steps ∧
        ∀ st ∈ m.streams, Stream.is_empty st.2 = true)) ∧
    (¬(insert sid m.idle_steps = insert sid m.steps ∧
        ∀ st ∈ m.streams, Stream.is_empty st.2 = true) →
      (CascadeManager.mark_step_idle m sid).completion_event = m.completion_event) := by
  have hsub' : insert sid m.idle_steps ⊆ insert sid m.steps :=
    Finset.insert_subset_insert sid hsub
  refine ⟨rfl, ?_, ?_⟩
  · intro hev hev0
    by_cases hc : (insert sid m.idle_steps).card = (insert sid m.steps).card ∧
        (m.streams.all (fun st => Stream.is_empty st.2)) = true
    · exact ⟨Finset.eq_of_subset_of_card_le hsub' (le_of_eq hc.1.symm),
        fun st hst => List.all_eq_true.1 hc.2 st hst⟩
    · have hunch : (CascadeManager.mark_step_idle m sid).completion_event =
          m.completion_event := by
        rw [CascadeManager.mark_step_idle, CascadeManager.check_completion, if_neg hc]
      rw [hunch, hev0] at hev
      exact absurd hev (by simp)
  · intro hnc
    have hc : ¬((insert sid m.idle_steps).card = (insert sid m.steps).card ∧
        (m.streams.all (fun st => Stream.is_empty st.2)) = true) := by
      rintro ⟨h1, h2⟩
      exact hnc ⟨Finset.eq_of_subset_of_card_le hsub' (le_of_eq h1.symm),
        fun st hst => List.all_eq_true.1 h2 st hst⟩
    rw [CascadeManager.mark_step_idle, CascadeManager.check_completion, if_neg hc]

/-- A concrete manager state for the C1 witness: one stream with one empty
queue, one registered step not yet idle. -/
def mgrW : CascadeManager Nat :=
  ⟨[("X".toList, [("X:sub0".toList, [], 1)])], {"a".toList}, ∅, false⟩

theorem claim_C1_completion_witness :
    mgrW.idle_steps ⊆ mgrW.steps ∧
    ((CascadeManager.mark_step_idle mgrW ("a".toList) =
      CascadeManager.check_completion
        { mgrW with steps := insert ("a".toList) mgrW.steps,
                    idle_steps := insert ("a".toList) mgrW.idle_steps }) ∧
    ((CascadeManager.mark_step_idle mgrW ("a".toList)).completion_event = true →
      mgrW.completion_event = false →
      (insert ("a".toList) mgrW.idle_steps = insert ("a".toList) mgrW.steps ∧
        ∀ st ∈ mgrW.streams, Stream.is_empty st.2 = true)) ∧
    (¬(insert ("a".toList) mgrW.idle_steps = insert ("a".toList) mgrW.steps ∧
        ∀ st ∈ mgrW.streams, Stream.is_empty st.2 = true) →
      (CascadeManager.mark_step_idle mgrW ("a".toList)).completion_event =
        mgrW.completion_event)) :=
  ⟨by decide, claim_C1_completion mgrW ("a".toList) (by decide)⟩

/-- C2 counterexample.  `merge_cascade_ids` does not de-duplicate: merging
the duplicated parent list `["a", "a"]` yields `a;a@s`, not the `a@s` that
the de-duplicating description (and invariance under repetition) demands. -/
theorem claim_C2_counterexample :
    Message.merge_cascade_ids ["a".toList, "a".toList] ("s".toList) = "a;a@s".toList ∧
    Message.merge_cascade_ids ["a".toList] ("s".toList) = "a@s".toList ∧
    Message.merge_cascade_ids ["a".toList, "a".toList] ("s".toList) ≠
      Message.merge_cascade_ids ["a".toList] ("s".toList) :=
  ⟨by decide, by decide, by decide⟩

/-- C2 (amended).  `merge_cascade_ids` equals the lexicographically sorted
parents (duplicates kept) joined by `;` followed by `@step`; consequently it
is invariant under permutation of the parent list — but not under repetition
of a parent. -/
theorem claim_C2_merge_permutation {l l' : List PyStr} (h : l.Perm l')
    (step_name : PyStr) :
    Message.merge_cascade_ids l step_name = Message.merge_cascade_ids l' step_name := by
  unfold Message.merge_cascade_ids pySortStrs
  have h1 : (List.insertionSort StrLE l).Perm (List.insertionSort StrLE l') :=
    ((List.perm_insertionSort StrLE l).trans h).trans
      (List.perm_insertionSort StrLE l').symm
  rw [List.eq_of_perm_of_sorted h1 (List.sorted_insertionSort StrLE l)
    (List.sorted_insertionSort StrLE l')]

theorem claim_C2_merge_permutation_witness :
    (["b".toList, "a".toList] : List PyStr).Perm ["a".toList, "b".toList] ∧
    Message.merge_cascade_ids ["b".toList, "a".toList] ("s".toList) =
      Message.merge_cascade_ids ["a".toList, "b".toList] ("s".toList) :=
  ⟨by decide, claim_C2_merge_permutation (by decide) ("s".toList)⟩

/-- C4.  `store` errors out exactly when a row with key
`(stream_name, cascade_id)` is present (leaving the table unchanged, since the
transaction rolls back), inserts exactly one row otherwise, and therefore
every table reachable from the empty table has no two rows sharing a stream
name and cascade id. -/
theorem claim_C4_storage_unique {α : Type} (tbl : List (Row α)) (s : PyStr)
    (m : Message α) :
    ((∃ r ∈ tbl, r.stream_name = s ∧ r.cascade_id = m.cascade_id) →
      SQLiteStorage.store tbl s m = Except.error ("UNIQUE constraint failed".toList)) ∧
    ((∀ r ∈ tbl, ¬(r.stream_name = s ∧ r.cascade_id = m.cascade_id)) →
      SQLiteStorage.store tbl s m =
        Except.ok (tbl ++ [⟨s, m.cascade_id, m.payload, m.metadata⟩])) ∧
    (StorageReach tbl →
      tbl.Pairwise (fun r r' =>
        r.stream_name = r'.stream_name → r.cascade_id ≠ r'.cascade_id)) := by
  refine ⟨?_, ?_, ?_⟩
  · intro h
    rw [SQLiteStorage.store, if_pos (by simpa [List.any_eq_true] using h)]
  · intro h
    rw [SQLiteStorage.store, if_neg (by simpa [List.any_eq_true] using h)]
  · intro hreach
    induction hreach with
    | init => exact List.Pairwise.nil
    | step hr hok ih =>
      rename_i tbl0 tbl1 s0 m0
      rw [SQLiteStorage.store] at hok
      by_cases hany : tbl0.any
          (fun r => r.stream_name = s0 ∧ r.cascade_id = m0.cascade_id) = true
      · rw [if_pos hany] at hok
        exact absurd hok (by simp)
      · rw [if_neg hany] at hok
        obtain rfl : tbl0 ++ [⟨s0, m0.cascade_id, m0.payload, m0.metadata⟩] = tbl1 :=
          Except.ok.inj hok
        have hfresh : ∀ r ∈ tbl0,
            ¬(r.stream_name = s0 ∧ r.cascade_id = m0.cascade_id) := by
          simpa [List.any_eq_true] using hany
        refine List.pairwise_append.2 ⟨ih, List.pairwise_singleton _ _, ?_⟩
        intro r hr0 r' hr1
        rw [List.mem_singleton] at hr1
        subst hr1
        intro hstream hcid
        exact hfresh r hr0 ⟨hstream, hcid⟩

/-- Concrete storage rows for the C4 witness. -/
def rowW : Row Nat := ⟨"X".toList, "a".toList, 1, []⟩

/-- A one-row table reachable by a single successful store. -/
def tblW : List (Row Nat) := [rowW]

/-- The message stored to build `tblW`. -/
def msg0W : Message Nat := ⟨"a".toList, 1, []⟩

/-- A second message whose key collides with `rowW` on stream `X`. -/
def msgDup : Message Nat := ⟨"a".toList, 2, []⟩

theorem claim_C4_storage_unique_witness :
    SQLiteStorage.store tblW ("X".toList) msgDup =
      Except.error ("UNIQUE constraint failed".toList) ∧
    SQLiteStorage.store tblW ("Y".toList) msgDup =
      Except.ok (tblW ++ [⟨"Y".toList, msgDup.cascade_id, msgDup.payload, msgDup.metadata⟩]) ∧
    tblW.Pairwise (fun r r' =>
      r.stream_name = r'.stream_name → r.cascade_id ≠ r'.cascade_id) :=
  ⟨(claim_C4_storage_unique tblW ("X".toList) msgDup).1 (by decide),
   (claim_C4_storage_unique tblW ("Y".toList) msgDup).2.1 (by decide),
   (claim_C4_storage_unique tblW ("X".toList) msgDup).2.2
     (StorageReach.step StorageReach.init
       (rfl : SQLiteStorage.store [] ("X".toList) msg0W = Except.ok tblW))⟩

/-- The number of `generate()` calls made before iteration `i` of
`SourceStep.run`: one call per earlier index whose deterministic id is absent
from the output stream's storage. -/
def callsBefore (name : PyStr) (existing : PyStr → Bool) (i : Nat) : Nat :=
  ((List.range i).filter (fun j => !existing (srcCascadeId name j))).length

theorem runLoop_cons_skip {α : Type} {name : PyStr} {existing : PyStr → Bool}
    (gen : Nat → Option α) {i : Nat} (rest : List Nat) (g : Nat)
    (hex : existing (srcCascadeId name i) = true) :
    SourceStep.runLoop name existing gen (i :: rest) g =
      SourceStep.runLoop name existing gen rest g := by
  simp [SourceStep.runLoop, hex]

theorem runLoop_cons_pub {α : Type} {name : PyStr} {existing : PyStr → Bool}
    {gen : Nat → Option α} {i g : Nat} {d : α} (rest : List Nat)
    (hex : existing (srcCascadeId name i) = false) (hg : gen g = some d) :
    SourceStep.runLoop name existing gen (i :: rest) g =
      ⟨srcCascadeId name i, d, [("source_step".toList, name)]⟩ ::
        SourceStep.runLoop name existing gen rest (g + 1) := by
  simp [SourceStep.runLoop, hex, hg]

theorem runLoop_cons_none {α : Type} {name : PyStr} {existing : PyStr → Bool}
    {gen : Nat → Option α} {i g : Nat} (rest : List Nat)
    (hex : existing (srcCascadeId name i) = false) (hg : gen g = none) :
    SourceStep.runLoop name existing gen (i :: rest) g =
      SourceStep.runLoop name existing gen rest (g + 1) := by
  simp [SourceStep.runLoop, hex, hg]

theorem runLoop_append {α : Type} (name : PyStr) (existing : PyStr → Bool)
    (gen : Nat → Option α) (l1 l2 : List Nat) (g : Nat) :
    SourceStep.runLoop name existing gen (l1 ++ l2) g =
      SourceStep.runLoop name existing gen l1 g ++
        SourceStep.runLoop name existing gen l2
          (g + (l1.filter (fun j => !existing (srcCascadeId name j))).length) := by
  induction l1 generalizing g with
  | nil => simp [SourceStep.runLoop]
  | cons i rest ih =>
    by_cases hex : existing (srcCascadeId name i) = true
    · have hf : List.filter (fun j => !existing (srcCascadeId name j)) (i :: rest) =
          List.filter (fun j => !existing (srcCascadeId name j)) rest := by
        simp [hex]
      rw [List.cons_append, runLoop_cons_skip gen (rest ++ l2) g hex,
        runLoop_cons_skip gen rest g hex, ih, hf]
    · rw [Bool.not_eq_true] at hex
      have hf : (List.filter (fun j => !existing (srcCascadeId name j)) (i :: rest)).length =
          (List.filter (fun j => !existing (srcCascadeId name j)) rest).length + 1 := by
        simp [hex]
      have harith : g + 1 +
          (List.filter (fun j => !existing (srcCascadeId name j)) rest).length =
          g + ((List.filter (fun j => !existing (srcCascadeId name j)) rest).length + 1) := by
        omega
      cases hg : gen g with
      | some d =>
        rw [List.cons_append, runLoop_cons_pub (rest ++ l2) hex hg,
          runLoop_cons_pub rest hex hg, ih, hf, harith, List.cons_append]
      | none =>
        rw [List.cons_append, runLoop_cons_none (rest ++ l2) hex hg,
          runLoop_cons_none rest hex hg, ih, hf, harith]

theorem runLoop_single {α : Type} (name : PyStr) (existing : PyStr → Bool)
    (gen : Nat → Option α) (i g : Nat) :
    SourceStep.runLoop name existing gen [i] g =
      if existing (srcCascadeId name i) then []
      else
        match gen g with
        | some d => [⟨srcCascadeId name i, d, [("source_step".toList, name)]⟩]
        | none => [] := by
  by_cases hex : existing (srcCascadeId name i)
  · simp [SourceStep.runLoop, hex]
  · cases hg : gen g with
    | some d => simp [SourceStep.runLoop, hex, hg]
    | none => simp [SourceStep.runLoop, hex, hg]

theorem runLoop_sound {α : Type} (name : PyStr) (existing : PyStr → Bool)
    (gen : Nat → Option α) :
    ∀ (c : Nat) (msg : Message α),
      msg ∈ SourceStep.runLoop name existing gen (List.range c) 0 →
      ∃ i, i < c ∧ existing (srcCascadeId name i) = false ∧
        msg.cascade_id = srcCascadeId name i ∧
        msg.metadata = [("source_step".toList, name)] ∧
        gen (callsBefore name existing i) = some msg.payload := by
  intro c
  induction c with
  | zero =>
    intro msg h
    simp [SourceStep.runLoop] at h
  | succ c ih =>
    intro msg h
    rw [List.range_succ, runLoop_append] at h
    rcases List.mem_append.1 h with h' | h'
    · obtain ⟨i, hi, rest⟩ := ih msg h'
      exact ⟨i, Nat.lt_succ_of_lt hi, rest⟩
    · rw [runLoop_single] at h'
      by_cases hex : existing (srcCascadeId name c)
      · rw [if_pos hex] at h'
        simp at h'
      · rw [if_neg hex] at h'
        cases hg : gen (0 + ((List.range c).filter
            (fun j => !existing (srcCascadeId name j))).length) with
        | some d =>
          rw [hg] at h'
          rw [List.mem_singleton] at h'
          subst h'
          refine ⟨c, Nat.lt_succ_self c, by simp [hex], rfl, rfl, ?_⟩
          rw [show callsBefore name existing c = 0 + ((List.range c).filter
            (fun j => !existing (srcCascadeId name j))).length by
              simp [callsBefore]]
          exact hg
        | none =>
          rw [hg] at h'
          simp at h'

theorem runLoop_complete {α : Type} (name : PyStr) (existing : PyStr → Bool)
    (gen : Nat → Option α) :
    ∀ (c i : Nat), i < c → existing (srcCascadeId name i) = false →
      ∀ d, gen (callsBefore name existing i) = some d →
        (⟨srcCascadeId name i, d, [("source_step".toList, name)]⟩ : Message α) ∈
          SourceStep.runLoop name existing gen (List.range c) 0 := by
  intro c
  induction c with
  | zero =>
    intro i hi
    omega
  | succ c ih =>
    intro i hi hex d hg
    rw [List.range_succ, runLoop_append]
    rcases Nat.lt_succ_iff_lt_or_eq.1 hi with h' | rfl
    · exact List.mem_append_left _ (ih i h' hex d hg)
    · refine List.mem_append_right _ ?_
      rw [runLoop_single, if_neg (by simp [hex])]
      rw [show 0 + ((List.range i).filter
          (fun j => !existing (srcCascadeId name j))).length =
          callsBefore name existing i by simp [callsBefore], hg]
      simp

/-- C5.  A source step with name `N` iterates `i` over
`range(int(params.get('count', 1)))`; the candidate id is `N:count=i`; a
message is published only when that id is absent from the output storage, and
every published message carries exactly that id, the payload of the
corresponding `generate()` call, and metadata `{source_step: N}`; conversely
each fresh index whose `generate()` call returns a payload is published; and
after the loop the step id is marked idle. -/
theorem claim_C5_source_run {α : Type} (name : PyStr)
    (params : List (PyStr × PyStr)) (countParam : Option Nat)
    (existing : PyStr → Bool) (gen : Nat → Option α) :
    (∀ msg ∈ (SourceStep.run name params countParam existing gen).published,
      ∃ i, i < countParam.getD 1 ∧ existing (srcCascadeId name i) = false ∧
        msg.cascade_id = srcCascadeId name i ∧
        msg.metadata = [("source_step".toList, name)] ∧
        gen (callsBefore name existing i) = some msg.payload) ∧
    (∀ i < countParam.getD 1, existing (srcCascadeId name i) = false →
      ∀ d, gen (callsBefore name existing i) = some d →
        (⟨srcCascadeId name i, d, [("source_step".toList, name)]⟩ : Message α) ∈
          (SourceStep.run name params countParam existing gen).published) ∧
    (SourceStep.run name params countParam existing gen).idle_marked =
      [Step.make_step_id name params] :=
  ⟨fun msg h => runLoop_sound name existing gen _ msg h,
   fun i hi hex d hg => runLoop_complete name existing gen _ i hi hex d hg,
   rfl⟩

/-- The `check_exists` predicate for the C5 witness: only `s:count=0` is
already stored. -/
def existW : PyStr → Bool := fun s => s == "s:count=0".toList

/-- The `generate()` oracle for the C5 witness: the first call yields 11,
later calls yield nothing. -/
def genW : Nat → Option Nat := fun g => if g = 0 then some 11 else none

theorem claim_C5_source_run_witness :
    (1 < (some 2 : Option Nat).getD 1 ∧
      existW (srcCascadeId ("s".toList) 1) = false ∧
      genW (callsBefore ("s".toList) existW 1) = some 11) ∧
    (⟨srcCascadeId ("s".toList) 1, 11, [("source_step".toList, "s".toList)]⟩ :
        Message Nat) ∈
      (SourceStep.run ("s".toList) [] (some 2) existW genW).published :=
  ⟨⟨by decide, by decide, by decide⟩,
   (claim_C5_source_run ("s".toList) [] (some 2) existW genW).2.1 1 (by decide)
     (by decide) 11 (by decide)⟩

/-- The outcome of a source step named `src` with params `{count: 2}` whose
first `generate()` call raises (later calls would succeed). -/
def srcExcOutcome : SourceOutcome Nat :=
  SourceStep.runE ("src".toList) [("count".toList, "2".toList)] (some 2)
    (fun _ => false)
    (fun g => if g = 0 then Except.error () else Except.ok (some 7))

/-- C9 (code bug).  When `generate()` raises at iteration 0, the remaining
iteration is abandoned (nothing is published even though the next call would
succeed) and the handler marks the bare name `src` idle — not the registered
step id `src[count=2]` that `mark_active` used — so the manager is left with
`src[count=2]` permanently active and the completion check cannot fire. -/
theorem claim_C9_source_exception_idle :
    srcExcOutcome.published = [] ∧
    srcExcOutcome.idle_marked = ["src".toList] ∧
    Step.make_step_id ("src".toList) [("count".toList, "2".toList)] =
      "src[count=2]".toList ∧
    ("src[count=2]".toList) ∉ srcExcOutcome.idle_marked ∧
    (CascadeManager.mark_step_idle
      (CascadeManager.mark_step_active (⟨[], ∅, ∅, false⟩ : CascadeManager Nat)
        ("src[count=2]".toList))
      ("src".toList)).completion_event = false := by
  refine ⟨by decide, by decide, by decide, by decide, by decide⟩

/-- A string avoids the reserved cascade-id alphabet `/ : , = ; @` (§3 of the
spec requires this of step names and parameter components). -/
def reservedFree (s : PyStr) : Prop :=
  ∀ c ∈ s, c ≠ '/' ∧ c ≠ ':' ∧ c ≠ ',' ∧ c ≠ '=' ∧ c ≠ ';' ∧ c ≠ '@'

instance (s : PyStr) : Decidable (reservedFree s) :=
  List.decidableBAll _ s

/-- Splitting behaviour of `parseCascadeId` on an id of the form
`parent-prefix ++ last-token` produced by `derive_cascade_id`: the prefix and
the last token are recovered exactly, for any `/`-free last token. -/
theorem parseCascadeId_shape (P last : PyStr) (hl : '/' ∉ last) :
    parseCascadeId ((if P = [] then [] else P ++ ['/']) ++ last) =
      (P, (match breakAtChar ':' last with
        | none => (last, [])
        | some sp =>
          (sp.1, (splitChar ',' sp.2).map (fun kv =>
            match breakAtChar '=' kv with
            | some b => (b.1, b.2)
            | none => (kv, []))))) := by
  by_cases hp : P = []
  · subst hp
    rw [if_pos rfl, List.nil_append]
    simp only [parseCascadeId, splitChar_of_not_mem hl]
    cases hb : breakAtChar ':' last with
    | none => simp [hb, joinChar]
    | some sp => simp [hb, joinChar]
  · have hid : (if P = [] then [] else P ++ ['/']) ++ last = P ++ '/' :: last := by
      rw [if_neg hp, List.append_assoc]
      rfl
    rw [hid]
    simp only [parseCascadeId, splitChar_append_sep P hl, List.dropLast_concat,
      joinChar_splitChar, List.getLastD_concat]
    cases hb : breakAtChar ':' last with
    | none => simp [hb]
    | some sp => simp [hb]

/-- C8.  For a step name and parameter bindings that avoid the reserved
alphabet, parsing the id produced by `derive_cascade_id` (split the path on
`/`, the last token on the first `:`, the parameter string on `,` and `=`)
recovers the parent id, the step name, and the bindings in key-sorted order —
a permutation of the original bindings; and an empty parent produces an id
that starts directly with the step name, with no leading `/`. -/
theorem claim_C8_derive_parse {α : Type} (m : Message α) (step_name : PyStr)
    (params : List (PyStr × PyStr))
    (hS : reservedFree step_name)
    (hP : ∀ kv ∈ params, reservedFree kv.1 ∧ reservedFree kv.2) :
    parseCascadeId (m.derive_cascade_id step_name params) =
      (m.cascade_id, step_name, pySortPairs params) ∧
    (pySortPairs params).Perm params ∧
    (m.cascade_id = [] →
      ∃ t, m.derive_cascade_id step_name params = step_name ++ t) := by
  have hperm : (pySortPairs params).Perm params := List.perm_insertionSort PairLE params
  have hSslash : '/' ∉ step_name := fun hc => (hS '/' hc).1 rfl
  have hScolon : ':' ∉ step_name := fun hc => (hS ':' hc).2.1 rfl
  by_cases hpar : params = []
  · subst hpar
    have hd : m.derive_cascade_id step_name [] =
        (if m.cascade_id = [] then [] else m.cascade_id ++ ['/']) ++ step_name := by
      simp [Message.derive_cascade_id]
    refine ⟨?_, hperm, ?_⟩
    · rw [hd, parseCascadeId_shape _ _ hSslash, breakAtChar_of_not_mem hScolon]
      rfl
    · intro hPnil
      exact ⟨[], by rw [hd, if_pos hPnil, List.nil_append, List.append_nil]⟩
  · have hmemSorted : ∀ kv ∈ pySortPairs params, reservedFree kv.1 ∧ reservedFree kv.2 :=
      fun kv hkv => hP kv (hperm.mem_iff.1 hkv)
    have hmemPstr : ∀ c ∈ joinChar ','
        ((pySortPairs params).map (fun kv => kv.1 ++ '=' :: kv.2)),
        c = ',' ∨ c = '=' ∨ ∃ kv ∈ pySortPairs params, c ∈ kv.1 ∨ c ∈ kv.2 := by
      intro c hc
      rcases mem_joinChar hc with h | ⟨p, hp, hcp⟩
      · exact Or.inl h
      · rcases List.mem_map.1 hp with ⟨kv, hkv, rfl⟩
        rcases List.mem_append.1 hcp with h1 | h1
        · exact Or.inr (Or.inr ⟨kv, hkv, Or.inl h1⟩)
        · rcases List.mem_cons.1 h1 with h2 | h2
          · exact Or.inr (Or.inl h2)
          · exact Or.inr (Or.inr ⟨kv, hkv, Or.inr h2⟩)
    have hslashP : '/' ∉ joinChar ','
        ((pySortPairs params).map (fun kv => kv.1 ++ '=' :: kv.2)) := by
      intro hc
      rcases hmemPstr '/' hc with h | h | ⟨kv, hkv, h | h⟩
      · exact absurd h (by decide)
      · exact absurd h (by decide)
      · exact ((hmemSorted kv hkv).1 '/' h).1 rfl
      · exact ((hmemSorted kv hkv).2 '/' h).1 rfl
    have hlast : '/' ∉ step_name ++ ':' :: joinChar ','
        ((pySortPairs params).map (fun kv => kv.1 ++ '=' :: kv.2)) := by
      intro hc
      rcases List.mem_append.1 hc with h | h
      · exact hSslash h
      · rcases List.mem_cons.1 h with h | h
        · exact absurd h (by decide)
        · exact hslashP h
    have hd : m.derive_cascade_id step_name params =
        (if m.cascade_id = [] then [] else m.cascade_id ++ ['/']) ++
          (step_name ++ ':' :: joinChar ','
            ((pySortPairs params).map (fun kv => kv.1 ++ '=' :: kv.2))) := by
      simp only [Message.derive_cascade_id, if_neg hpar]
      rw [List.append_assoc]
    refine ⟨?_, hperm, ?_⟩
    · rw [hd, parseCascadeId_shape _ _ hlast,
        breakAtChar_append (joinChar ','
          ((pySortPairs params).map (fun kv => kv.1 ++ '=' :: kv.2))) hScolon]
      show (m.cascade_id, step_name,
          (splitChar ',' (joinChar ','
            ((pySortPairs params).map (fun kv => kv.1 ++ '=' :: kv.2)))).map
            (fun kv => match breakAtChar '=' kv with
              | some b => (b.1, b.2)
              | none => (kv, []))) =
        (m.cascade_id, step_name, pySortPairs params)
      have hsne : pySortPairs params ≠ [] := by
        intro h0
        apply hpar
        have h1 := hperm
        rw [h0] at h1
        exact (List.Perm.eq_nil h1.symm)
      have hpieces_ne : (pySortPairs params).map (fun kv => kv.1 ++ '=' :: kv.2) ≠ [] := by
        intro h0
        exact hsne (List.map_eq_nil_iff.1 h0)
      have hcomma_free : ∀ p ∈ (pySortPairs params).map (fun kv => kv.1 ++ '=' :: kv.2),
          ',' ∉ p := by
        intro p hp hc
        rcases List.mem_map.1 hp with ⟨kv, hkv, rfl⟩
        rcases List.mem_append.1 hc with h | h
        · exact ((hmemSorted kv hkv).1 ',' h).2.2.1 rfl
        · rcases List.mem_cons.1 h with h | h
          · exact absurd h (by decide)
          · exact ((hmemSorted kv hkv).2 ',' h).2.2.1 rfl
      rw [splitChar_joinChar hpieces_ne hcomma_free, List.map_map]
      have hmapper : ∀ kv ∈ pySortPairs params,
          ((fun kv => match breakAtChar '=' kv with
            | some b => (b.1, b.2)
            | none => (kv, [])) ∘ (fun kv => kv.1 ++ '=' :: kv.2)) kv = kv := by
        intro kv hkv
        have heqfree : '=' ∉ kv.1 := fun hc => ((hmemSorted kv hkv).1 '=' hc).2.2.2.1 rfl
        simp only [Function.comp_apply]
        rw [breakAtChar_append kv.2 heqfree]
      rw [List.map_congr_left hmapper]
      simp
    · intro hPnil
      refine ⟨':' :: joinChar ','
        ((pySortPairs params).map (fun kv => kv.1 ++ '=' :: kv.2)), ?_⟩
      rw [hd, if_pos hPnil, List.nil_append]

/-- Concrete inputs for the C8 witness. -/
def msgP : Message Nat := ⟨"p".toList, 0, []⟩

/-- Concrete parameter bindings for the C8 witness. -/
def paramsW : List (PyStr × PyStr) := [("k".toList, "v".toList), ("b".toList, "w".toList)]

theorem claim_C8_derive_parse_witness :
    reservedFree ("st".toList) ∧
    (∀ kv ∈ paramsW, reservedFree kv.1 ∧ reservedFree kv.2) ∧
    (parseCascadeId (msgP.derive_cascade_id ("st".toList) paramsW) =
      (msgP.cascade_id, "st".toList, pySortPairs paramsW) ∧
    (pySortPairs paramsW).Perm paramsW ∧
    (msgP.cascade_id = [] →
      ∃ t, msgP.derive_cascade_id ("st".toList) paramsW = "st".toList ++ t)) :=
  ⟨by decide, by decide,
   claim_C8_derive_parse msgP ("st".toList) paramsW (by decide) (by decide)⟩

/-- Generic association-list fact: with distinct keys, every entry is found
by `dGet`. -/
theorem dGet_of_mem_nodup {β : Type} {l : List (PyStr × β)} {k : PyStr} {v : β}
    (hnd : (l.map Prod.fst).Nodup) (hm : (k, v) ∈ l) : dGet l k = some v := by
  induction l with
  | nil => simp at hm
  | cons kv rest ih =>
    simp only [List.map_cons, List.nodup_cons] at hnd
    rcases List.mem_cons.1 hm with h | h
    · subst h
      simp [dGet]
    · have h1 : kv.1 ≠ k := by
        intro heq
        exact hnd.1 (heq ▸ List.mem_map_of_mem Prod.fst h)
      rw [dGet, if_neg h1]
      exact ih hnd.2 h

theorem dGet_map_val {α β' : Type} (f : α → β') :
    ∀ (l : List (PyStr × α)) (k : PyStr),
      dGet (l.map (fun kv => (kv.1, f kv.2))) k = (dGet l k).map f := by
  intro l
  induction l with
  | nil => intro k; rfl
  | cons kv rest ih =>
    intro k
    by_cases h : kv.1 = k
    · simp [dGet, h]
    · simp [dGet, h, ih]

/-- Splitting a string at a unique marker character is unambiguous. -/
theorem marker_eq_iff {m : Char} {a b x y : PyStr} (ha : m ∉ a) (hb : m ∉ b)
    (h : a ++ m :: x = b ++ m :: y) : a = b ∧ x = y := by
  have h1 := breakAtChar_append x ha
  rw [h, breakAtChar_append y hb] at h1
  have h2 := Option.some_injective _ h1
  exact ⟨(congrArg Prod.fst h2).symm, (congrArg Prod.snd h2).symm⟩

theorem underscore_not_mem_natChars (k : Nat) : '_' ∉ natChars k := by
  intro h
  have hrange := mem_natChars_toNat h
  have h95 : ('_' : Char).toNat = 95 := by decide
  omega

theorem underscore_not_mem_rootKey (i : Nat) : '_' ∉ rootKey i := by
  intro h
  rcases List.mem_append.1 h with h | h
  · exact absurd h (by decide)
  · exact underscore_not_mem_natChars i h

theorem rootKey_injective : Function.Injective rootKey := by
  intro i j h
  exact natChars_injective (List.append_cancel_left h)

/-- The string begins with the four characters `root` (the shape of the
synthetic merge keys). -/
def startsWithRootChars (s : PyStr) : Prop := s.take 4 = "root".toList

instance (s : PyStr) : Decidable (startsWithRootChars s) := by
  unfold startsWithRootChars
  infer_instance

theorem rootKey_startsWith (i : Nat) : startsWithRootChars (rootKey i) := by
  show ("root".toList ++ natChars i).take 4 = "root".toList
  have h4 : ("root".toList : PyStr).length = 4 := by decide
  rw [← h4, List.take_left]

/-- How many of the collected records carry the step name `n`. -/
def cntName {α : Type} (recs : List (PyStr × α)) (n : PyStr) : Nat :=
  (recs.filter (fun r => r.1 = n)).length

theorem cntName_append {α : Type} (a b : List (PyStr × α)) (n : PyStr) :
    cntName (a ++ b) n = cntName a n + cntName b n := by
  simp [cntName, List.filter_append]

theorem cntName_cons {α : Type} (m : PyStr) (p : α) (l : List (PyStr × α)) (n : PyStr) :
    cntName ((m, p) :: l) n = (if m = n then 1 else 0) + cntName l n := by
  by_cases h : m = n
  · simp [cntName, h, Nat.add_comm]
  · simp [cntName, h]

/-- The key under which the walk of `unroll_single_path` records a payload for
a step named `n`, given the records `done` already collected: the bare name
for the first occurrence, `n_0`, `n_1`, … for later ones. -/
def dupKey {α : Type} (done : List (PyStr × α)) (n : PyStr) : PyStr :=
  if cntName done n = 0 then n else n ++ '_' :: natChars (cntName done n - 1)

/-- The result mapping built from the records `recs` given the records `done`
collected before them. -/
def mkRes {α : Type} : List (PyStr × α) → List (PyStr × α) → List (PyStr × α)
  | _, [] => []
  | done, (n, p) :: rest => (dupKey done n, p) :: mkRes (done ++ [(n, p)]) rest

/-- Assigned keys of earlier records differ from assigned keys of any record
that comes at or after a record with the earlier record's name. -/
theorem dupKey_ne_extend {α : Type} (d tail : List (PyStr × α)) (m n : PyStr) (q : α)
    (hm : '_' ∉ m) (hn : '_' ∉ n) :
    dupKey d m ≠ dupKey (d ++ (m, q) :: tail) n := by
  have hc2 : cntName (d ++ (m, q) :: tail) m =
      cntName d m + (1 + cntName tail m) := by
    rw [cntName_append, cntName_cons, if_pos rfl]
  unfold dupKey
  by_cases h1 : cntName d m = 0 <;>
    by_cases h2 : cntName (d ++ (m, q) :: tail) n = 0
  · rw [if_pos h1, if_pos h2]
    intro h
    subst h
    omega
  · rw [if_pos h1, if_neg h2]
    intro h
    have hmem : '_' ∈ n ++ '_' :: natChars (cntName (d ++ (m, q) :: tail) n - 1) :=
      List.mem_append.2 (Or.inr (List.mem_cons_self _ _))
    rw [← h] at hmem
    exact hm hmem
  · rw [if_neg h1, if_pos h2]
    intro h
    have hmem : '_' ∈ m ++ '_' :: natChars (cntName d m - 1) :=
      List.mem_append.2 (Or.inr (List.mem_cons_self _ _))
    rw [h] at hmem
    exact hn hmem
  · rw [if_neg h1, if_neg h2]
    intro h
    obtain ⟨hmn, hdig⟩ := marker_eq_iff hm hn h
    subst hmn
    have hk := natChars_injective hdig
    omega

theorem mkRes_length {α : Type} :
    ∀ (recs d : List (PyStr × α)), (mkRes d recs).length = recs.length := by
  intro recs
  induction recs with
  | nil => intro d; rfl
  | cons r rest ih =>
    intro d
    obtain ⟨n, p⟩ := r
    simp [mkRes, ih]

theorem mem_mkRes_keys {α : Type} :
    ∀ (recs d : List (PyStr × α)) (x : PyStr),
      x ∈ (mkRes d recs).map Prod.fst →
      ∃ pre1 m q post, recs = pre1 ++ (m, q) :: post ∧ x = dupKey (d ++ pre1) m := by
  intro recs
  induction recs with
  | nil =>
    intro d x h
    simp [mkRes] at h
  | cons r rest ih =>
    intro d x h
    obtain ⟨n, p⟩ := r
    rw [mkRes] at h
    rcases List.mem_cons.1 h with h' | h'
    · exact ⟨[], n, p, rest, by simp, by simpa using h'⟩
    · obtain ⟨pre1, m, q, post, hsplit, hx⟩ := ih (d ++ [(n, p)]) x h'
      refine ⟨(n, p) :: pre1, m, q, post, by simp [hsplit], ?_⟩
      rw [hx, List.append_assoc]
      rfl

theorem mkRes_keys_nodup {α : Type} :
    ∀ (recs d : List (PyStr × α)), (∀ r ∈ recs, '_' ∉ r.1) →
      ((mkRes d recs).map Prod.fst).Nodup := by
  intro recs
  induction recs with
  | nil =>
    intro d _
    simp [mkRes]
  | cons r rest ih =>
    intro d hfree
    obtain ⟨n, p⟩ := r
    rw [mkRes, List.map_cons, List.nodup_cons]
    constructor
    · intro hmem
      obtain ⟨pre1, m, q, post, hsplit, hx⟩ := mem_mkRes_keys rest (d ++ [(n, p)]) _ hmem
      have hn : '_' ∉ n := hfree (n, p) (by simp)
      have hmfree : '_' ∉ m := by
        have : (m, q) ∈ rest := by
          rw [hsplit]
          exact List.mem_append.2 (Or.inr (List.mem_cons_self _ _))
        exact hfree (m, q) (List.mem_cons_of_mem _ this)
      have hassoc : (d ++ [(n, p)]) ++ pre1 = d ++ (n, p) :: pre1 := by
        rw [List.append_assoc]
        rfl
      rw [hassoc] at hx
      exact dupKey_ne_extend d pre1 n m p hn hmfree hx
    · exact ih (d ++ [(n, p)]) (fun r hr => hfree r (List.mem_cons_of_mem _ hr))

/-- Reading the result mapping at the key assigned to its `j`-th record
returns that record's payload. -/
theorem dGet_mkRes_at {α : Type} :
    ∀ (recs d : List (PyStr × α)) (j : Nat) (hj : j < recs.length),
      (∀ r ∈ recs, '_' ∉ r.1) →
      dGet (mkRes d recs) (dupKey (d ++ recs.take j) (recs.get ⟨j, hj⟩).1) =
        some (recs.get ⟨j, hj⟩).2 := by
  intro recs
  induction recs with
  | nil =>
    intro d j hj
    simp at hj
  | cons r rest ih =>
    intro d j hj hfree
    obtain ⟨n, p⟩ := r
    cases j with
    | zero =>
      simp only [List.take_zero, List.append_nil, List.get]
      rw [mkRes, dGet, if_pos rfl]
    | succ j' =>
      have hj' : j' < rest.length := Nat.lt_of_succ_lt_succ hj
      have hkey : dupKey (d ++ ((n, p) :: rest).take (j' + 1))
          (((n, p) :: rest).get ⟨j' + 1, hj⟩).1 =
          dupKey ((d ++ [(n, p)]) ++ rest.take j') ((rest.get ⟨j', hj'⟩).1) := by
        rw [List.take_succ_cons, List.append_assoc]
        rfl
      rw [hkey, mkRes, dGet]
      have hn : '_' ∉ n := hfree (n, p) (by simp)
      have hm : '_' ∉ (rest.get ⟨j', hj'⟩).1 :=
        hfree _ (List.mem_cons_of_mem _ (List.get_mem _ _ _))
      have hne : dupKey d n ≠
          dupKey ((d ++ [(n, p)]) ++ rest.take j') ((rest.get ⟨j', hj'⟩).1) := by
        have hassoc : (d ++ [(n, p)]) ++ rest.take j' = d ++ (n, p) :: rest.take j' := by
          rw [List.append_assoc]
          rfl
        rw [hassoc]
        exact dupKey_ne_extend d (rest.take j') n _ p hn hm
      have hne2 : ((dupKey d n, p) : PyStr × α).1 ≠
          dupKey ((d ++ [(n, p)]) ++ rest.take j') ((rest.get ⟨j', hj'⟩).1) := hne
      rw [if_neg hne2]
      exact ih (d ++ [(n, p)]) j' hj' (fun r hr => hfree r (List.mem_cons_of_mem _ hr))

/-- A name with no record never appears as a key. -/
theorem dGet_mkRes_of_cnt_zero {α : Type} :
    ∀ (recs d : List (PyStr × α)) {n : PyStr},
      '_' ∉ n → cntName recs n = 0 → dGet (mkRes d recs) n = none := by
  intro recs
  induction recs with
  | nil =>
    intro d n _ _
    rfl
  | cons r rest ih =>
    intro d n hn hcnt
    obtain ⟨m, p⟩ := r
    rw [cntName_cons] at hcnt
    have hmn : m ≠ n := by
      intro h
      rw [if_pos h] at hcnt
      omega
    have hrest : cntName rest n = 0 := by
      rw [if_neg hmn] at hcnt
      omega
    rw [mkRes, dGet]
    have hne : dupKey d m ≠ n := by
      unfold dupKey
      split
      · exact hmn
      · intro h
        have : '_' ∈ n := by
          rw [← h]
          exact List.mem_append.2 (Or.inr (List.mem_cons_self _ _))
        exact hn this
    rw [if_neg hne]
    exact ih (d ++ [(m, p)]) hn hrest

/-- A name with at least one record, none of them counted in `d`, appears as
a key. -/
theorem dGet_mkRes_isSome {α : Type} :
    ∀ (recs d : List (PyStr × α)) {n : PyStr},
      '_' ∉ n → cntName d n = 0 → 1 ≤ cntName recs n →
      (dGet (mkRes d recs) n).isSome = true := by
  intro recs
  induction recs with
  | nil =>
    intro d n _ _ hcnt
    simp [cntName] at hcnt
  | cons r rest ih =>
    intro d n hn hd hcnt
    obtain ⟨m, p⟩ := r
    rw [mkRes, dGet]
    by_cases hmn : m = n
    · subst hmn
      rw [if_pos (by rw [dupKey, if_pos hd])]
      simp
    · rw [cntName_cons, if_neg hmn] at hcnt
      have hne : dupKey d m ≠ n := by
        unfold dupKey
        split
        · exact hmn
        · intro h
          have : '_' ∈ n := by
            rw [← h]
            exact List.mem_append.2 (Or.inr (List.mem_cons_self _ _))
          exact hn this
      rw [if_neg hne]
      have hd' : cntName (d ++ [(m, p)]) n = 0 := by
        have h0 : cntName ([] : List (PyStr × α)) n = 0 := rfl
        rw [cntName_append, cntName_cons, if_neg hmn]
        omega
      exact ih (d ++ [(m, p)]) hn hd' (by omega)

/-- The duplicate-suffixed key for the next occurrence is fresh: no earlier
record was assigned it. -/
theorem dGet_mkRes_dup_none {α : Type} :
    ∀ (recs d : List (PyStr × α)) {n : PyStr} {k : Nat},
      '_' ∉ n → (∀ r ∈ recs, '_' ∉ r.1) →
      cntName d n + cntName recs n ≤ k + 1 →
      dGet (mkRes d recs) (n ++ '_' :: natChars k) = none := by
  intro recs
  induction recs with
  | nil =>
    intro d n k _ _ _
    rfl
  | cons r rest ih =>
    intro d n k hn hfree hcnt
    obtain ⟨m, p⟩ := r
    rw [cntName_cons] at hcnt
    have hm : '_' ∉ m := hfree (m, p) (by simp)
    rw [mkRes, dGet]
    have hne : dupKey d m ≠ n ++ '_' :: natChars k := by
      unfold dupKey
      split
      · intro h
        have : '_' ∈ m := by
          rw [h]
          exact List.mem_append.2 (Or.inr (List.mem_cons_self _ _))
        exact hm this
      · rename_i hd0
        intro h
        obtain ⟨hmn, hdig⟩ := marker_eq_iff hm hn h
        subst hmn
        have hk := natChars_injective hdig
        rw [if_pos rfl] at hcnt
        omega
    rw [if_neg hne]
    refine ih (d ++ [(m, p)]) hn (fun r hr => hfree r (List.mem_cons_of_mem _ hr)) ?_
    have h0 : cntName ([] : List (PyStr × α)) n = 0 := rfl
    rw [cntName_append, cntName_cons]
    by_cases hmn : m = n
    · rw [if_pos hmn]
      rw [if_pos hmn] at hcnt
      omega
    · rw [if_neg hmn]
      rw [if_neg hmn] at hcnt
      omega

theorem mkRes_snoc {α : Type} :
    ∀ (recs d : List (PyStr × α)) (n : PyStr) (p : α),
      mkRes d (recs ++ [(n, p)]) = mkRes d recs ++ [(dupKey (d ++ recs) n, p)] := by
  intro recs
  induction recs with
  | nil =>
    intro d n p
    simp [mkRes]
  | cons r rest ih =>
    intro d n p
    obtain ⟨m, q⟩ := r
    rw [List.cons_append, mkRes, mkRes, ih, List.cons_append]
    have hassoc : (d ++ [(m, q)]) ++ rest = d ++ (m, q) :: rest := by
      rw [List.append_assoc]
      rfl
    rw [hassoc]

/-- The records collected by the walk: one `(step name, payload)` pair per
token whose accumulated prefix id is present in storage.  `pre` is the list
of tokens already walked. -/
def recsOf {α : Type} (lookup : PyStr → Option α) :
    List PyStr → List PyStr → List (PyStr × α)
  | _, [] => []
  | pre, t :: ts =>
    match lookup (joinChar '/' (pre ++ [t])) with
    | some p => (parse_step_name t, p) :: recsOf lookup (pre ++ [t]) ts
    | none => recsOf lookup (pre ++ [t]) ts

theorem recsOf_append {α : Type} (lookup : PyStr → Option α) :
    ∀ (a : List PyStr) (pre b : List PyStr),
      recsOf lookup pre (a ++ b) =
        recsOf lookup pre a ++ recsOf lookup (pre ++ a) b := by
  intro a
  induction a with
  | nil =>
    intro pre b
    simp [recsOf]
  | cons t a' ih =>
    intro pre b
    rw [List.cons_append, recsOf, recsOf]
    have hassoc : (pre ++ [t]) ++ a' = pre ++ t :: a' := by
      rw [List.append_assoc]
      rfl
    cases hl : lookup (joinChar '/' (pre ++ [t])) with
    | some p => rw [ih, hassoc, List.cons_append]
    | none => rw [ih, hassoc]

theorem mem_recsOf_names {α : Type} (lookup : PyStr → Option α) :
    ∀ (ts pre : List PyStr) (r : PyStr × α),
      r ∈ recsOf lookup pre ts → ∃ t ∈ ts, r.1 = parse_step_name t := by
  intro ts
  induction ts with
  | nil =>
    intro pre r h
    simp [recsOf] at h
  | cons t ts' ih =>
    intro pre r h
    rw [recsOf] at h
    cases hl : lookup (joinChar '/' (pre ++ [t])) with
    | some p =>
      rw [hl] at h
      rcases List.mem_cons.1 h with h' | h'
      · exact ⟨t, by simp, by rw [h']⟩
      · obtain ⟨t', ht', hr⟩ := ih (pre ++ [t]) r h'
        exact ⟨t', List.mem_cons_of_mem _ ht', hr⟩
    | none =>
      rw [hl] at h
      obtain ⟨t', ht', hr⟩ := ih (pre ++ [t]) r h
      exact ⟨t', List.mem_cons_of_mem _ ht', hr⟩

theorem go_cons_empty {α : Type} (lookup : PyStr → Option α) (ts : List PyStr)
    (cur : List PyStr) (res : List (PyStr × α)) (seen : List (PyStr × Nat)) :
    unrollSinglePathGo lookup ([] :: ts) cur res seen =
      unrollSinglePathGo lookup ts cur res seen := by
  simp [unrollSinglePathGo]

theorem go_cons_none {α : Type} (lookup : PyStr → Option α) {t : PyStr}
    (ts cur : List PyStr) (res : List (PyStr × α)) (seen : List (PyStr × Nat))
    (ht : t ≠ []) (hl : lookup (joinChar '/' (cur ++ [t])) = none) :
    unrollSinglePathGo lookup (t :: ts) cur res seen =
      unrollSinglePathGo lookup ts (cur ++ [t]) res seen := by
  simp [unrollSinglePathGo, ht, hl]

theorem go_cons_fresh {α : Type} (lookup : PyStr → Option α) {t : PyStr} {p : α}
    (ts cur : List PyStr) (res : List (PyStr × α)) (seen : List (PyStr × Nat))
    (ht : t ≠ []) (hl : lookup (joinChar '/' (cur ++ [t])) = some p)
    (hm : (dGet res (parse_step_name t)).isSome = false) :
    unrollSinglePathGo lookup (t :: ts) cur res seen =
      unrollSinglePathGo lookup ts (cur ++ [t])
        (dictSet res (parse_step_name t) p) seen := by
  simp [unrollSinglePathGo, ht, hl, hm]

theorem go_cons_dup {α : Type} (lookup : PyStr → Option α) {t : PyStr} {p : α}
    (ts cur : List PyStr) (res : List (PyStr × α)) (seen : List (PyStr × Nat))
    (ht : t ≠ []) (hl : lookup (joinChar '/' (cur ++ [t])) = some p)
    (hm : (dGet res (parse_step_name t)).isSome = true) :
    unrollSinglePathGo lookup (t :: ts) cur res seen =
      unrollSinglePathGo lookup ts (cur ++ [t])
        (dictSet res
          (parse_step_name t ++ '_' :: natChars ((dGet seen (parse_step_name t)).getD 0))
          p)
        (dictSet seen (parse_step_name t) ((dGet seen (parse_step_name t)).getD 0 + 1)) := by
  simp [unrollSinglePathGo, ht, hl, hm]

theorem go_filter {α : Type} (lookup : PyStr → Option α) :
    ∀ (ts cur : List PyStr) (res : List (PyStr × α)) (seen : List (PyStr × Nat)),
      unrollSinglePathGo lookup ts cur res seen =
        unrollSinglePathGo lookup (ts.filter (fun t => t ≠ [])) cur res seen := by
  intro ts
  induction ts with
  | nil =>
    intro cur res seen
    rfl
  | cons t ts' ih =>
    intro cur res seen
    by_cases ht : t = []
    · subst ht
      rw [go_cons_empty, ih]
      simp
    · have hf : (t :: ts').filter (fun t => t ≠ []) =
          t :: ts'.filter (fun t => t ≠ []) := by
        simp [ht]
      rw [hf]
      cases hl : lookup (joinChar '/' (cur ++ [t])) with
      | none =>
        rw [go_cons_none lookup ts' cur res seen ht hl,
          go_cons_none lookup _ cur res seen ht hl, ih]
      | some p =>
        cases hm : (dGet res (parse_step_name t)).isSome with
        | false =>
          rw [go_cons_fresh lookup ts' cur res seen ht hl hm,
            go_cons_fresh lookup _ cur res seen ht hl hm, ih]
        | true =>
          rw [go_cons_dup lookup ts' cur res seen ht hl hm,
            go_cons_dup lookup _ cur res seen ht hl hm, ih]

/-- The walk of `unroll_single_path`, started after having processed the
tokens `pre`, computes exactly the `mkRes` mapping of the records collected
along the accumulated prefixes — provided no step name contains `_` (so that
the `_0`, `_1`, … suffix scheme cannot collide with a real key). -/
theorem go_eq_mkRes {α : Type} (lookup : PyStr → Option α) :
    ∀ (ts pre : List PyStr) (seen : List (PyStr × Nat)),
      (∀ t ∈ ts, t ≠ [] → '_' ∉ parse_step_name t) →
      (∀ r ∈ recsOf lookup [] pre, '_' ∉ r.1) →
      (∀ n, (dGet seen n).getD 0 = cntName (recsOf lookup [] pre) n - 1) →
      unrollSinglePathGo lookup ts pre (mkRes [] (recsOf lookup [] pre)) seen =
        mkRes [] (recsOf lookup [] (pre ++ ts.filter (fun t => t ≠ []))) := by
  intro ts
  induction ts with
  | nil =>
    intro pre seen _ _ _
    simp [unrollSinglePathGo]
  | cons t ts' ih =>
    intro pre seen hts hfree hseen
    have hts' : ∀ t' ∈ ts', t' ≠ [] → '_' ∉ parse_step_name t' :=
      fun t' ht' => hts t' (List.mem_cons_of_mem _ ht')
    by_cases ht : t = []
    · subst ht
      rw [go_cons_empty, ih pre seen hts' hfree hseen]
      simp
    · have hfilter : (t :: ts').filter (fun t => t ≠ []) =
          t :: ts'.filter (fun t => t ≠ []) := by
        simp [ht]
      have hassoc : (pre ++ [t]) ++ ts'.filter (fun t => t ≠ []) =
          pre ++ t :: ts'.filter (fun t => t ≠ []) := by
        rw [List.append_assoc]
        rfl
      have hsn_free : '_' ∉ parse_step_name t := hts t (by simp) ht
      cases hl : lookup (joinChar '/' (pre ++ [t])) with
      | none =>
        rw [go_cons_none lookup ts' pre (mkRes [] (recsOf lookup [] pre)) seen ht hl]
        have h2 : recsOf lookup pre [t] = [] := by
          rw [recsOf, hl]
          rfl
        have hrecs : recsOf lookup [] (pre ++ [t]) = recsOf lookup [] pre := by
          have h1 := recsOf_append lookup pre [] [t]
          rw [List.nil_append] at h1
          rw [h1, h2, List.append_nil]
        have goal' := ih (pre ++ [t]) seen hts'
          (fun r hr => hfree r (hrecs ▸ hr))
          (fun n => by rw [hrecs]; exact hseen n)
        rw [hrecs] at goal'
        rw [goal', hfilter, hassoc]
      | some p =>
        have h2 : recsOf lookup pre [t] = [(parse_step_name t, p)] := by
          rw [recsOf, hl]
          rfl
        have hrecs : recsOf lookup [] (pre ++ [t]) =
            recsOf lookup [] pre ++ [(parse_step_name t, p)] := by
          have h1 := recsOf_append lookup pre [] [t]
          rw [List.nil_append] at h1
          rw [h1, h2]
        have hfree' : ∀ r ∈ recsOf lookup [] (pre ++ [t]), '_' ∉ r.1 := by
          intro r hr
          rw [hrecs] at hr
          rcases List.mem_append.1 hr with h' | h'
          · exact hfree r h'
          · rw [List.mem_singleton] at h'
            subst h'
            exact hsn_free
        have h0 : ∀ n, cntName ([] : List (PyStr × α)) n = 0 := fun _ => rfl
        by_cases hc : cntName (recsOf lookup [] pre) (parse_step_name t) = 0
        · have hm : (dGet (mkRes [] (recsOf lookup [] pre))
              (parse_step_name t)).isSome = false := by
            rw [dGet_mkRes_of_cnt_zero (recsOf lookup [] pre) [] hsn_free hc]
            rfl
          rw [go_cons_fresh lookup ts' pre (mkRes [] (recsOf lookup [] pre)) seen ht hl hm]
          have hset : dictSet (mkRes [] (recsOf lookup [] pre)) (parse_step_name t) p =
              mkRes [] (recsOf lookup [] (pre ++ [t])) := by
            rw [dictSet_of_dGet_none
              (dGet_mkRes_of_cnt_zero (recsOf lookup [] pre) [] hsn_free hc) p, hrecs,
              mkRes_snoc, List.nil_append, dupKey, if_pos hc]
          rw [hset]
          have hseen' : ∀ n, (dGet seen n).getD 0 =
              cntName (recsOf lookup [] (pre ++ [t])) n - 1 := by
            intro n
            rw [hrecs, cntName_append, cntName_cons]
            by_cases hsn : parse_step_name t = n
            · subst hsn
              rw [if_pos rfl, hseen (parse_step_name t)]
              have hz := h0 (parse_step_name t)
              omega
            · rw [if_neg hsn, hseen n]
              have hz := h0 n
              omega
          rw [ih (pre ++ [t]) seen hts' hfree' hseen', hfilter, hassoc]
        · have hc1 : 1 ≤ cntName (recsOf lookup [] pre) (parse_step_name t) := by omega
          have hm : (dGet (mkRes [] (recsOf lookup [] pre))
              (parse_step_name t)).isSome = true :=
            dGet_mkRes_isSome (recsOf lookup [] pre) [] hsn_free rfl hc1
          rw [go_cons_dup lookup ts' pre (mkRes [] (recsOf lookup [] pre)) seen ht hl hm]
          have hcnt0 : (dGet seen (parse_step_name t)).getD 0 =
              cntName (recsOf lookup [] pre) (parse_step_name t) - 1 :=
            hseen (parse_step_name t)
          have hkey_none : dGet (mkRes [] (recsOf lookup [] pre))
              (parse_step_name t ++ '_' ::
                natChars ((dGet seen (parse_step_name t)).getD 0)) = none := by
            rw [hcnt0]
            refine dGet_mkRes_dup_none (recsOf lookup [] pre) [] hsn_free hfree ?_
            have hz := h0 (parse_step_name t)
            omega
          have hset : dictSet (mkRes [] (recsOf lookup [] pre))
              (parse_step_name t ++ '_' ::
                natChars ((dGet seen (parse_step_name t)).getD 0)) p =
              mkRes [] (recsOf lookup [] (pre ++ [t])) := by
            rw [dictSet_of_dGet_none hkey_none p, hrecs, mkRes_snoc, List.nil_append,
              dupKey, if_neg hc, hcnt0]
          rw [hset]
          have hseen' : ∀ n, (dGet (dictSet seen (parse_step_name t)
              ((dGet seen (parse_step_name t)).getD 0 + 1)) n).getD 0 =
              cntName (recsOf lookup [] (pre ++ [t])) n - 1 := by
            intro n
            rw [dGet_dictSet, hrecs, cntName_append, cntName_cons]
            by_cases hsn : n = parse_step_name t
            · subst hsn
              rw [if_pos rfl, if_pos rfl]
              simp only [Option.getD_some]
              rw [hcnt0]
              have hz := h0 (parse_step_name t)
              omega
            · rw [if_neg hsn, if_neg (fun hh => hsn hh.symm), hseen n]
              have hz := h0 n
              omega
          rw [ih (pre ++ [t]) (dictSet seen (parse_step_name t)
            ((dGet seen (parse_step_name t)).getD 0 + 1)) hts' hfree' hseen',
            hfilter, hassoc]

/-- The records of a path: one `(step name, payload)` entry per non-empty
token of the `/`-split whose accumulated prefix id is present in storage. -/
def pathRecs {α : Type} (lookup : PyStr → Option α) (path : PyStr) :
    List (PyStr × α) :=
  recsOf lookup [] ((splitChar '/' path).filter (fun t => t ≠ []))

theorem unroll_single_path_eq {α : Type} (lookup : PyStr → Option α) (path : PyStr)
    (hfree_t : ∀ t ∈ splitChar '/' path, '_' ∉ parse_step_name t) :
    unroll_single_path lookup path = mkRes [] (pathRecs lookup path) := by
  unfold unroll_single_path pathRecs
  rw [go_filter]
  have hidem : ((splitChar '/' path).filter (fun t => t ≠ [])).filter
      (fun t => t ≠ []) = (splitChar '/' path).filter (fun t => t ≠ []) :=
    List.filter_eq_self.2 (fun t ht => (List.mem_filter.1 ht).2)
  have h := go_eq_mkRes lookup ((splitChar '/' path).filter (fun t => t ≠ [])) [] []
    (fun t ht _ => hfree_t t (List.mem_filter.1 ht).1)
    (fun r hr => by simp [recsOf] at hr)
    (fun n => rfl)
  rw [List.nil_append, hidem] at h
  exact h

theorem rootsFold_preserve {α : Type} (lookup : PyStr → Option α) :
    ∀ (roots : List PyStr) (n : Nat) (acc : List (PyStr × UnrollVal α)) (k : PyStr),
      (∀ m, n ≤ m → k ≠ rootKey m) →
      dGet ((roots.enumFrom n).foldl (fun a ir =>
        dictSet a (rootKey ir.1) (UnrollVal.dict (unroll_single_path lookup ir.2))) acc) k =
      dGet acc k := by
  intro roots
  induction roots with
  | nil =>
    intro n acc k _
    rfl
  | cons r rest ih =>
    intro n acc k hk
    show dGet ((rest.enumFrom (n + 1)).foldl (fun a ir =>
      dictSet a (rootKey ir.1) (UnrollVal.dict (unroll_single_path lookup ir.2)))
      (dictSet acc (rootKey n) (UnrollVal.dict (unroll_single_path lookup r)))) k =
      dGet acc k
    rw [ih (n + 1) _ k (fun m hm => hk m (by omega))]
    rw [dGet_dictSet, if_neg (hk n (le_refl n))]

theorem dGet_rootsFold {α : Type} (lookup : PyStr → Option α) :
    ∀ (roots : List PyStr) (n : Nat) (acc : List (PyStr × UnrollVal α)) (i : Nat)
      (hi : i < roots.length),
      dGet acc (rootKey (n + i)) = none →
      dGet ((roots.enumFrom n).foldl (fun a ir =>
        dictSet a (rootKey ir.1) (UnrollVal.dict (unroll_single_path lookup ir.2))) acc)
        (rootKey (n + i)) =
      some (UnrollVal.dict (unroll_single_path lookup (roots.get ⟨i, hi⟩))) := by
  intro roots
  induction roots with
  | nil =>
    intro n acc i hi
    simp at hi
  | cons r rest ih =>
    intro n acc i hi hacc
    cases i with
    | zero =>
      show dGet ((rest.enumFrom (n + 1)).foldl (fun a ir =>
        dictSet a (rootKey ir.1) (UnrollVal.dict (unroll_single_path lookup ir.2)))
        (dictSet acc (rootKey n) (UnrollVal.dict (unroll_single_path lookup r))))
        (rootKey (n + 0)) =
        some (UnrollVal.dict (unroll_single_path lookup r))
      rw [rootsFold_preserve lookup rest (n + 1) _ _ (fun m hm heq => by
        have := rootKey_injective heq
        omega)]
      have hc : rootKey (n + 0) = rootKey n := rfl
      rw [dGet_dictSet, if_pos hc]
    | succ j =>
      have hj : j < rest.length := Nat.lt_of_succ_lt_succ hi
      show dGet ((rest.enumFrom (n + 1)).foldl (fun a ir =>
        dictSet a (rootKey ir.1) (UnrollVal.dict (unroll_single_path lookup ir.2)))
        (dictSet acc (rootKey n) (UnrollVal.dict (unroll_single_path lookup r))))
        (rootKey (n + (j + 1))) =
        some (UnrollVal.dict (unroll_single_path lookup (rest.get ⟨j, hj⟩)))
      have harith : n + (j + 1) = (n + 1) + j := by omega
      rw [harith]
      refine ih (n + 1) _ j hj ?_
      rw [dGet_dictSet, if_neg (fun heq => by
        have := rootKey_injective heq
        omega)]
      rw [← harith]
      exact hacc

/-- C3 (amended).  For every message: walking the path part of its cascade id
left to right, every non-empty token whose accumulated prefix id is present
in storage contributes an entry to `unroll`'s mapping — keyed by its step
name, with later stored occurrences of the same step name suffixed `_0`,
`_1`, … (`dupKey`/`pathRecs` encode exactly this rule) — whose value is the
payload stored under that prefix; and when the id contains `@`, each
`;`-separated parent before it is unrolled as its own path and placed under
the synthetic key `root{i}`.  Step names must not contain `_` and must not
begin with `root`, or the suffix scheme and the synthetic keys can collide
with real keys. -/
theorem claim_C3_unroll_amended {α : Type} (lookup : PyStr → Option α) :
    (∀ (pay : α) (meta : List (PyStr × PyStr)) (path : PyStr),
      breakAtChar '@' path = none →
      (∀ t ∈ splitChar '/' path, '_' ∉ parse_step_name t) →
      ∀ j (hj : j < (pathRecs lookup path).length),
        dGet (CascadeManager.unroll lookup ⟨path, pay, meta⟩)
            (dupKey ((pathRecs lookup path).take j)
              ((pathRecs lookup path).get ⟨j, hj⟩).1) =
          some (UnrollVal.payload ((pathRecs lookup path).get ⟨j, hj⟩).2)) ∧
    (∀ (pay : α) (meta : List (PyStr × PyStr)) (roots_part path : PyStr),
      '@' ∉ roots_part →
      (∀ t ∈ splitChar '/' path, '_' ∉ parse_step_name t) →
      (∀ t ∈ splitChar '/' path, ¬startsWithRootChars (parse_step_name t)) →
      (∀ i (hi : i < (splitChar ';' roots_part).length),
        dGet (CascadeManager.unroll lookup ⟨roots_part ++ '@' :: path, pay, meta⟩)
            (rootKey i) =
          some (UnrollVal.dict
            (unroll_single_path lookup ((splitChar ';' roots_part).get ⟨i, hi⟩)))) ∧
      (∀ j (hj : j < (pathRecs lookup path).length),
        dGet (CascadeManager.unroll lookup ⟨roots_part ++ '@' :: path, pay, meta⟩)
            (dupKey ((pathRecs lookup path).take j)
              ((pathRecs lookup path).get ⟨j, hj⟩).1) =
          some (UnrollVal.payload ((pathRecs lookup path).get ⟨j, hj⟩).2))) := by
  have keyfact : ∀ (path : PyStr),
      (∀ t ∈ splitChar '/' path, '_' ∉ parse_step_name t) →
      (∀ r ∈ pathRecs lookup path, '_' ∉ r.1) := by
    intro path hfree_t r hr
    obtain ⟨t, ht, hr1⟩ := mem_recsOf_names lookup _ [] r hr
    rw [hr1]
    exact hfree_t t (List.mem_filter.1 ht).1
  have mapfact : ∀ (path : PyStr),
      (∀ t ∈ splitChar '/' path, '_' ∉ parse_step_name t) →
      ∀ j (hj : j < (pathRecs lookup path).length),
      dGet ((mkRes [] (pathRecs lookup path)).map
          (fun kv => (kv.1, UnrollVal.payload kv.2)))
          (dupKey ((pathRecs lookup path).take j)
            ((pathRecs lookup path).get ⟨j, hj⟩).1) =
        some (UnrollVal.payload ((pathRecs lookup path).get ⟨j, hj⟩).2) := by
    intro path hfree_t j hj
    rw [dGet_map_val]
    have h1 := dGet_mkRes_at (pathRecs lookup path) [] j hj (keyfact path hfree_t)
    rw [List.nil_append] at h1
    rw [h1]
    rfl
  have ndfact : ∀ (path : PyStr),
      (∀ t ∈ splitChar '/' path, '_' ∉ parse_step_name t) →
      (((mkRes [] (pathRecs lookup path)).map
        (fun kv => (kv.1, UnrollVal.payload kv.2))).map Prod.fst).Nodup := by
    intro path hfree_t
    have hsame : ((mkRes [] (pathRecs lookup path)).map
        (fun kv => (kv.1, UnrollVal.payload kv.2))).map Prod.fst =
        (mkRes [] (pathRecs lookup path)).map Prod.fst := by
      simp
    rw [hsame]
    exact mkRes_keys_nodup _ [] (keyfact path hfree_t)
  constructor
  · intro pay meta path hat hfree_t j hj
    have hu : CascadeManager.unroll lookup ⟨path, pay, meta⟩ =
        dictUpdate [] ((mkRes [] (pathRecs lookup path)).map
          (fun kv => (kv.1, UnrollVal.payload kv.2))) := by
      simp only [CascadeManager.unroll, hat]
      rw [unroll_single_path_eq lookup path hfree_t]
    rw [hu]
    exact dGet_dictUpdate_of_mem (mapfact path hfree_t j hj) (ndfact path hfree_t) []
  · intro pay meta roots_part path hat hfree_t hroot_t
    have hb : breakAtChar '@' (roots_part ++ '@' :: path) = some (roots_part, path) :=
      breakAtChar_append path hat
    have hu : CascadeManager.unroll lookup ⟨roots_part ++ '@' :: path, pay, meta⟩ =
        dictUpdate
          ((splitChar ';' roots_part).enum.foldl (fun a ir =>
            dictSet a (rootKey ir.1)
              (UnrollVal.dict (unroll_single_path lookup ir.2))) [])
          ((mkRes [] (pathRecs lookup path)).map
            (fun kv => (kv.1, UnrollVal.payload kv.2))) := by
      simp only [CascadeManager.unroll, hb]
      rw [unroll_single_path_eq lookup path hfree_t]
    have hnotroot : ∀ i, ∀ kv ∈ (mkRes [] (pathRecs lookup path)).map
        (fun kv => (kv.1, UnrollVal.payload kv.2)), kv.1 ≠ rootKey i := by
      intro i kv hkv
      rcases List.mem_map.1 hkv with ⟨kv0, hkv0, rfl⟩
      have hkmem : kv0.1 ∈ (mkRes [] (pathRecs lookup path)).map Prod.fst :=
        List.mem_map_of_mem Prod.fst hkv0
      obtain ⟨pre1, mname, q, post, hsplit, hx⟩ := mem_mkRes_keys _ [] _ hkmem
      have hrec : (mname, q) ∈ pathRecs lookup path := by
        rw [hsplit]
        exact List.mem_append.2 (Or.inr (List.mem_cons_self _ _))
      obtain ⟨t, ht, hname⟩ := mem_recsOf_names lookup _ [] _ hrec
      have hnroot : ¬startsWithRootChars mname := by
        rw [show mname = parse_step_name t from hname]
        exact hroot_t t (List.mem_filter.1 ht).1
      show kv0.1 ≠ rootKey i
      rw [hx, List.nil_append]
      unfold dupKey
      split
      · intro hh
        exact hnroot (hh ▸ rootKey_startsWith i)
      · intro hh
        have hmem : '_' ∈ mname ++ '_' :: natChars (cntName pre1 mname - 1) :=
          List.mem_append.2 (Or.inr (List.mem_cons_self _ _))
        rw [hh] at hmem
        exact underscore_not_mem_rootKey i hmem
    refine ⟨?_, ?_⟩
    · intro i hi
      rw [hu, dGet_dictUpdate_of_not_mem (hnotroot i)]
      have h := dGet_rootsFold lookup (splitChar ';' roots_part) 0 [] i hi rfl
      have h0i : (0 : Nat) + i = i := Nat.zero_add i
      rw [h0i] at h
      exact h
    · intro j hj
      rw [hu]
      exact dGet_dictUpdate_of_mem (mapfact path hfree_t j hj) (ndfact path hfree_t) _

/-- Storage for the C3 counterexample: only the id `a/b` is present; its
prefix `a` is not. -/
def lookupC3 : PyStr → Option Nat :=
  fun s => if s = "a/b".toList then some 0 else none

/-- A persisted message (its own id is in storage) one of whose path prefixes
is absent from storage. -/
def msgC3 : Message Nat := ⟨"a/b".toList, 0, []⟩

/-- C3 counterexample.  `a` is a step name appearing as a token of the
persisted message's path, yet it is not a key of `unroll`'s result, because
the accumulated prefix id `a` is not present in storage: the walk records
only prefixes that exist, so unconditional key-completeness fails. -/
theorem claim_C3_counterexample :
    lookupC3 msgC3.cascade_id = some msgC3.payload ∧
    ("a".toList) ∈ (splitChar '/' msgC3.cascade_id).map parse_step_name ∧
    dGet (CascadeManager.unroll lookupC3 msgC3) ("a".toList) = none :=
  ⟨by decide, by decide, by decide⟩

/-- Storage for the C3 witness: both `s` and `s/t` are present. -/
def lookupC3w : PyStr → Option Nat := fun s =>
  if s = "s".toList then some 1 else if s = "s/t".toList then some 2 else none

theorem claim_C3_unroll_amended_witness :
    (breakAtChar '@' ("s/t".toList) = none ∧
      (∀ t ∈ splitChar '/' ("s/t".toList), '_' ∉ parse_step_name t) ∧
      1 < (pathRecs lookupC3w ("s/t".toList)).length) ∧
    dGet (CascadeManager.unroll lookupC3w ⟨"s/t".toList, 2, []⟩)
        (dupKey ((pathRecs lookupC3w ("s/t".toList)).take 1)
          ((pathRecs lookupC3w ("s/t".toList)).get ⟨1, by decide⟩).1) =
      some (UnrollVal.payload
        ((pathRecs lookupC3w ("s/t".toList)).get ⟨1, by decide⟩).2) :=
  ⟨⟨by decide, by decide, by decide⟩,
   (claim_C3_unroll_amended lookupC3w).1 2 [] ("s/t".toList) (by decide) (by decide)
     1 (by decide)⟩
